import Mathlib

/-!
# Audiogen: WAV codec, noise schedule and ping-pong sampler

A shallow embedding of `kleidiai-examples/audiogen/app/audiogen.cpp`.

* Bytes and 32-bit sample patterns are natural numbers; a file is a `List Nat`
  of bytes.  Multi-byte fields are little-endian, as on the hosts the program
  targets (`reinterpret_cast` of integers to `char*`).
* `std::ifstream` is an explicit state (`IStream`): contents, read position and
  the fail flag.
* `exit` paths and undefined behaviour are the `error` results of `Except`.
* Floating-point code is embedded over an arbitrary ordered field, with `exp`,
  `log` and the random generator passed in; the theorems instantiate it at `ℝ`.
-/

namespace Audiogen

/-! ## Constants -/

def k_audio_sr : Nat := 44100
def k_audio_num_channels : Nat := 2
def k_bits_per_sample : Nat := 32

/-- The four characters `RIFF`. -/
def tag_riff : List Nat := [82, 73, 70, 70]
/-- The four characters `WAVE`. -/
def tag_wave : List Nat := [87, 65, 86, 69]
/-- The four characters `fmt ` (with the trailing blank). -/
def tag_fmt : List Nat := [102, 109, 116, 32]
/-- The four characters `data`. -/
def tag_data : List Nat := [100, 97, 116, 97]

/-! ## Bytes -/

/-- Every element of the list is a byte. -/
def IsBytes (bs : List Nat) : Prop := ∀ b ∈ bs, b < 256

instance (bs : List Nat) : Decidable (IsBytes bs) := by
  unfold IsBytes; infer_instance

/-- The first `k` bytes of the little-endian object representation of `x`:
what `write(reinterpret_cast<const char*>(&x), k)` emits. -/
def le_bytes : Nat → Nat → List Nat
  | 0, _ => []
  | k + 1, x => (x % 256) :: le_bytes k (x / 256)

/-- The unsigned value of a little-endian byte string: what a `uint16_t` or
`uint32_t` holds after `read(reinterpret_cast<char*>(&x), k)` filled it. -/
def le_val : List Nat → Nat
  | [] => 0
  | b :: bs => b + 256 * le_val bs

/-! ## Input stream -/

/-- State of a `std::ifstream` opened in binary mode on a file with contents
`data`: the read position and whether `failbit` is set. -/
structure IStream where
  data : List Nat
  pos : Nat
  failed : Bool
deriving DecidableEq, Repr

namespace IStream

/-- A freshly and successfully opened stream. -/
def openFile (bytes : List Nat) : IStream := ⟨bytes, 0, false⟩

/-- Model of `istream::read(buf, n)`: on a failed stream nothing is extracted; otherwise
the available bytes up to `n` are extracted, and coming up short sets
`failbit` (with `eofbit`).  Returns the extracted bytes and the new state. -/
def read (s : IStream) (n : Nat) : List Nat × IStream :=
  if s.failed then ([], s)
  else
    let got := (s.data.drop s.pos).take n
    (got, { s with pos := s.pos + got.length, failed := decide (got.length < n) })

/-- Model of `istream::tellg()`: `none` stands for `streampos(-1)`, returned on a failed
stream. -/
def tellg (s : IStream) : Option Nat :=
  if s.failed then none else some s.pos

/-- Model of `istream::seekg(off, std::ios::cur)` with `off ≥ 0`: no effect on a failed
stream; otherwise the position moves forward.  Seeking beyond the end of a
file succeeds (as `lseek` does); the next `read` then fails. -/
def seekg_cur (s : IStream) (off : Nat) : IStream :=
  if s.failed then s else { s with pos := s.pos + off }

end IStream

/-- Contents of a buffer after `read` stored the extracted bytes `got` at its
start: the rest of the buffer keeps what it held. -/
def store (buf got : List Nat) : List Nat := got ++ buf.drop got.length

/-- Bytes of `n` uninitialised bytes of automatic storage at offset `off` of
the locals of `read_wav`; `junk` is whatever the stack held. -/
def uninit (junk : Nat → Nat) (off n : Nat) : List Nat :=
  (List.range n).map (fun i => junk (off + i))

/-! ## `read_wav` -/

/-- How a run of the decoder can end without channels. -/
inductive WavError
  /-- An `AUDIOGEN_CHECK` failed: `Error at file:line`, `exit(1)`. -/
  | check
  /-- The `RIFF`/`WAVE` magic is wrong: `BAD file, or unsupported format`,
  `exit(EXIT_FAILURE)`. -/
  | bad_file
  /-- The format fields are not accepted: `Unsupported WAV format`,
  `exit(EXIT_FAILURE)`. -/
  | unsupported
  /-- The C++ program has undefined behaviour (division by zero, a write or
  read outside a buffer, signed overflow). -/
  | undefined
  /-- The iteration budget of the embedding of a loop ran out. -/
  | out_of_fuel
deriving DecidableEq, Repr

deriving instance DecidableEq for Except

/-- The 32-bit pattern of element `k` of a `float` buffer given by its bytes. -/
def f32_at (buf : List Nat) (k : Nat) : Nat := le_val ((buf.drop (4 * k)).take 4)

/-- The chunk scan `for (;;)` of `read_wav` (lines 230-246), entered with
stream state `s`.  Returns the declared size of the data chunk and the stream
positioned at its payload.  `fuel` bounds the number of iterations. -/
def scan_data (riff_end : Nat) : Nat → IStream → Except WavError (Nat × IStream)
  | 0, _ => .error .out_of_fuel
  | fuel + 1, s =>
    match s.tellg with
    | none => .error .check
    | some _ =>
      let r1 := s.read 4
      let chunk_id := r1.1
      if r1.2.failed then .error .check else
      let r2 := r1.2.read 4
      if r2.2.failed then .error .check else
      let chunk_size := le_val r2.1
      if chunk_id = tag_data then
        if r2.2.pos + chunk_size ≤ riff_end then .ok (chunk_size, r2.2)
        else .error .check
      else
        let s3 := r2.2.seekg_cur ((chunk_size + chunk_size % 2) % 2 ^ 32)
        if s3.failed then .error .check else scan_data riff_end fuel s3

/-- Lines 248-262 of `read_wav`: read the payload into a zero-initialised
`vector<float>` of `total_samples` elements (`uint32_t` arithmetic) and split
it into the two channels.  The payload read is not checked: when the file ends
early the rest of the buffer stays zero.  Undefined behaviour: a block-align of
0 (division by zero), more bytes extracted than the buffer holds, and more than
`2^30` frames (`i * 2` overflows `int`, or indexes beyond `data_chunk`). -/
def read_frames (s : IStream) (data_chunk_sz block_align : Nat) :
    Except WavError (List Nat × List Nat) :=
  if block_align = 0 then .error .undefined else
  let num_frames := data_chunk_sz / block_align
  let total_samples := (num_frames * k_audio_num_channels) % 2 ^ 32
  let r := s.read data_chunk_sz
  if total_samples * 4 < r.1.length then .error .undefined else
  let data_chunk := store (List.replicate (total_samples * 4) 0) r.1
  if 2 ^ 30 < num_frames then .error .undefined else
  .ok ((List.range num_frames).map (fun i => f32_at data_chunk (i * 2 + 0)),
       (List.range num_frames).map (fun i => f32_at data_chunk (i * 2 + 1)))

/-- The decoder `read_wav` on a file with contents `bytes`.  The header fields are read
without checking the stream, so on a short file the locals keep their
indeterminate contents `junk`. -/
def read_wav (junk : Nat → Nat) (bytes : List Nat) : Except WavError (List Nat × List Nat) :=
  let wave_format_pcm := 0x0001
  let wave_format_ieee_float := 0x0003
  let wave_format_extensible := 0xFFFE
  let s := IStream.openFile bytes
  let riff_base := s.pos
  let r := s.read 4
  let riff := store (uninit junk 0 4) r.1
  let r := r.2.read 4
  let riff_size := le_val (store (uninit junk 4 4) r.1)
  if riff_size = 0 then .error .check else
  let r := r.2.read 4
  let wave := store (uninit junk 8 4) r.1
  if riff ≠ tag_riff ∨ wave ≠ tag_wave then .error .bad_file else
  let r := r.2.read 4
  let fmt := store (uninit junk 12 4) r.1
  if fmt ≠ tag_fmt then .error .check else
  let r := r.2.read 4
  let fmt_chunk_sz := le_val (store (uninit junk 16 4) r.1)
  if fmt_chunk_sz < 16 then .error .check else
  let r := r.2.read 2
  let audio_format := le_val (store (uninit junk 20 2) r.1)
  let r := r.2.read 2
  let audio_num_channels := le_val (store (uninit junk 22 2) r.1)
  let r := r.2.read 4
  let audio_sr := le_val (store (uninit junk 24 4) r.1)
  let r := r.2.read 4
  let _byte_rate := le_val (store (uninit junk 28 4) r.1)
  let r := r.2.read 2
  let block_align := le_val (store (uninit junk 32 2) r.1)
  let r := r.2.read 2
  let audio_bits_per_sample := le_val (store (uninit junk 34 2) r.1)
  if ¬ (audio_format = wave_format_ieee_float ∨ audio_format = wave_format_pcm
        ∨ audio_format = wave_format_extensible)
      ∨ audio_num_channels ≠ k_audio_num_channels
      ∨ audio_sr ≠ k_audio_sr
      ∨ audio_bits_per_sample ≠ k_bits_per_sample then .error .unsupported else
  let s := if 16 < fmt_chunk_sz then r.2.seekg_cur (fmt_chunk_sz - 16) else r.2
  if 16 < fmt_chunk_sz ∧ s.failed then .error .check else
  let riff_end := riff_base + (8 + riff_size)
  match scan_data riff_end (bytes.length + 1) s with
  | .error e => .error e
  | .ok (data_chunk_sz, s) => read_frames s data_chunk_sz block_align

/-! ## `save_as_wav` -/

/-- The encoder `save_as_wav`: the bytes written to the output file.  The channels are
read through raw pointers at indices below `buffer_sz`.  The `int32_t` size
fields hold the low 32 bits of their values. -/
def save_as_wav (left_ch right_ch : List Nat) (buffer_sz : Nat) : List Nat :=
  let audio_format := 3
  let byte_rate := k_audio_sr * k_audio_num_channels * (k_bits_per_sample / 8)
  let block_align := k_audio_num_channels * (k_bits_per_sample / 8)
  let data_chunk_sz := (buffer_sz * 2 * 4) % 2 ^ 32
  let fmt_chunk_sz := 16
  let header_sz := 44
  let file_sz := (header_sz + data_chunk_sz - 8) % 2 ^ 32
  let out := tag_riff
  let out := out ++ le_bytes 4 file_sz
  let out := out ++ tag_wave
  let out := out ++ tag_fmt
  let out := out ++ le_bytes 4 fmt_chunk_sz
  let out := out ++ le_bytes 2 audio_format
  let out := out ++ le_bytes 2 k_audio_num_channels
  let out := out ++ le_bytes 4 k_audio_sr
  let out := out ++ le_bytes 4 byte_rate
  let out := out ++ le_bytes 2 block_align
  let out := out ++ le_bytes 2 k_bits_per_sample
  let out := out ++ tag_data
  let out := out ++ le_bytes 4 data_chunk_sz
  (List.range buffer_sz).foldl
    (fun out i => out ++ le_bytes 4 (left_ch.getD i 0) ++ le_bytes 4 (right_ch.getD i 0)) out

/-! ## Random tensor, noise schedule and sampler

The `float` code is embedded over a type `α` with field operations.  The
library functions it calls are parameters: `exp`, `log`, and `normal_draw s i`,
the `i`-th variate `std::normal_distribution<float>(0, 1)` draws from a
`std::mt19937` seeded with the 32-bit value `s`. -/

def k_logsnr_max {α : Type} [Field α] : α := -6
def k_sigma_min {α : Type} [Field α] : α := 0
def k_sigma_max {α : Type} [Field α] : α := 1

/-- The generator `fill_random_norm_dist`: `std::generate` stores one draw after the other
in `buff[0 .. buff_sz)`.  `std::mt19937` keeps the low 32 bits of its seed. -/
def fill_random_norm_dist {α : Type} (normal_draw : Nat → Nat → α) (buff : List α)
    (buff_sz seed : Nat) : List α :=
  (List.range buff_sz).foldl (fun b i => b.set i (normal_draw (seed % 2 ^ 32) i)) buff

/-- The value of `static_cast<int32_t>` on a `size_t`. -/
def to_int32 (n : Nat) : Int :=
  if n % 2 ^ 32 < 2 ^ 31 then ((n % 2 ^ 32 : Nat) : Int) else ((n % 2 ^ 32 : Nat) : Int) - 2 ^ 32

/-- The schedule filler `fill_sigmas`.  `none` is undefined behaviour: for `sz ≤ 0` the
function writes `arr[0]` of an empty vector or `arr[sz - 1]` at a negative
index. -/
def fill_sigmas {α : Type} [Field α] (exp : α → α) (arr : List α) (start end_ sigma_max : α) :
    Option (List α) :=
  let sz : Int := to_int32 arr.length
  if sz ≤ 0 then none else
  let n := sz.toNat
  let step := (end_ - start) / (((sz - 1 : Int)) : α)
  let arr := arr.set 0 start
  let arr := arr.set (n - 1) end_
  let arr := (List.range (n - 2)).foldl (fun a k => a.set (k + 1) (a.getD k 0 + step)) arr
  let arr := (List.range n).foldl (fun a i => a.set i (1 / (1 + exp (a.getD i 0)))) arr
  let arr := arr.set 0 sigma_max
  let arr := arr.set (n - 1) k_sigma_min
  some arr

/-- Lines 618 and 632-637 of `main`: the schedule buffer of `num_steps + 1`
elements (`size_t` arithmetic), the derived start log-SNR, and the call of
`fill_sigmas` with end `2.0`. -/
def main_sigmas {α : Type} [LinearOrderedField α] (exp log : α → α) (sigma_max : α)
    (num_steps : Nat) : Option (List α) :=
  let t_buffer : List α := List.replicate ((num_steps + 1) % 2 ^ 64) 0
  let logsnr_max : α :=
    if sigma_max < 1 then log ((1 - sigma_max) / sigma_max + 1 / 1000000) else k_logsnr_max
  fill_sigmas exp t_buffer logsnr_max 2 sigma_max

/-- The sampler `sampler_ping_pong`: returns the buffers `dit_out_data` and `dit_x_in_data`
as the call leaves them.  The two buffers are distinct tensors of the
denoiser; `step_idx` is not used by the body. -/
def sampler_ping_pong {α : Type} [Field α] (normal_draw : Nat → Nat → α)
    (dit_out_data dit_x_in_data : List α) (dit_x_in_sz : Nat) (cur_t next_t : α)
    (_step_idx seed : Nat) : List α × List α :=
  let dit_out_data := (List.range dit_x_in_sz).foldl
    (fun out i => out.set i (dit_x_in_data.getD i 0 - cur_t * out.getD i 0)) dit_out_data
  let rand_tensor := fill_random_norm_dist normal_draw (List.replicate dit_x_in_sz 0)
    dit_x_in_sz seed
  let dit_x_in_data := (List.range dit_x_in_sz).foldl
    (fun x i => x.set i ((1 - next_t) * dit_out_data.getD i 0 + next_t * rand_tensor.getD i 0))
    dit_x_in_data
  (dit_out_data, dit_x_in_data)

/-! ## Reading a file by offsets -/

/-- The unsigned little-endian value of the `n` bytes at offset `off` of `F`. -/
def field (F : List Nat) (off n : Nat) : Nat := le_val ((F.drop off).take n)

/-- The 44 header bytes of a file in the layout `save_as_wav` writes, with
total-size field `a` and data size `b`. -/
def wav_header_bytes (a b : Nat) : List Nat :=
  [82, 73, 70, 70, a % 256, a / 256 % 256, a / 256 / 256 % 256, a / 256 / 256 / 256 % 256,
   87, 65, 86, 69, 102, 109, 116, 32, 16, 0, 0, 0, 3, 0, 2, 0, 68, 172, 0, 0, 32, 98, 5, 0,
   8, 0, 32, 0, 100, 97, 116, 97,
   b % 256, b / 256 % 256, b / 256 / 256 % 256, b / 256 / 256 / 256 % 256]

/-- The relation `DataChunkAt F pos p`: the chunk list of `F`, walked from the chunk
header at offset `pos` over chunks whose id is not `data`, reaches a `data`
chunk whose payload starts at offset `p`.  A chunk of declared length `L` is
followed by the chunk at distance `8 + (L + L % 2) mod 2^32`, the step
`read_wav` takes (it is `8 + L` plus the pad byte except for `L = 2^32 - 1`). -/
inductive DataChunkAt (F : List Nat) : Nat → Nat → Prop
  | here (pos : Nat) (hlen : pos + 8 ≤ F.length) (hid : (F.drop pos).take 4 = tag_data) :
      DataChunkAt F pos (pos + 8)
  | skip (pos p : Nat) (hlen : pos + 8 ≤ F.length) (hid : (F.drop pos).take 4 ≠ tag_data)
      (hrest : DataChunkAt F
        (pos + 8 + (field F (pos + 4) 4 + field F (pos + 4) 4 % 2) % 2 ^ 32) p) :
      DataChunkAt F pos p

/-- The relation `ChunkWalk F a b`: offset `b` is a chunk boundary of `F` reached from
the chunk header at offset `a` by stepping over chunks whose id is not `data`
(same step as in `DataChunkAt`). -/
inductive ChunkWalk (F : List Nat) : Nat → Nat → Prop
  | refl (pos : Nat) : ChunkWalk F pos pos
  | step (pos b : Nat) (hlen : pos + 8 ≤ F.length) (hid : (F.drop pos).take 4 ≠ tag_data)
      (hrest : ChunkWalk F
        (pos + 8 + (field F (pos + 4) 4 + field F (pos + 4) 4 % 2) % 2 ^ 32) b) :
      ChunkWalk F pos b

/-- A RIFF chunk: its 4-byte id, its payload, and the value of the pad byte
that follows a payload of odd length. -/
structure Chunk where
  id : List Nat
  payload : List Nat
  pad : Nat

/-- The bytes of a chunk: id, little-endian 4-byte length `L`, the `L` payload
bytes, and one pad byte when `L` is odd. -/
def Chunk.bytes (c : Chunk) : List Nat :=
  c.id ++ le_bytes 4 c.payload.length ++ c.payload
    ++ (if c.payload.length % 2 = 1 then [c.pad] else [])

/-- The file obtained from `F` by placing the bytes `ext` after the 16 standard format
bytes, raising the declared format-chunk length by `ext.length`, inserting the
chunks `chunks` at the chunk boundary `b`, and raising the total-size field by
the number of inserted bytes. -/
def insert_chunks (F ext : List Nat) (b : Nat) (chunks : List Chunk) : List Nat :=
  let inserted := chunks.flatMap Chunk.bytes
  F.take 4 ++ le_bytes 4 (field F 4 4 + (ext.length + inserted.length))
    ++ (F.drop 8).take 8 ++ le_bytes 4 (field F 16 4 + ext.length) ++ (F.drop 20).take 16
    ++ ext ++ (F.drop 36).take (b - 36) ++ inserted ++ F.drop b

/-! ## Concrete files -/

/-- A file as `save_as_wav` writes it for the single frame `(1, 2)`, except
that its sample-rate field (offset 24) is 48000. -/
def wav_48k : List Nat :=
  [82, 73, 70, 70, 44, 0, 0, 0, 87, 65, 86, 69, 102, 109, 116, 32, 16, 0, 0, 0, 3, 0, 2, 0,
   128, 187, 0, 0, 32, 98, 5, 0, 8, 0, 32, 0, 100, 97, 116, 97, 8, 0, 0, 0,
   1, 0, 0, 0, 2, 0, 0, 0]

/-- A file as `save_as_wav` writes it for the single frame `(1, 2)`, except
that its audio format tag (offset 20) is 1, the PCM tag. -/
def wav_pcm_tag : List Nat :=
  [82, 73, 70, 70, 44, 0, 0, 0, 87, 65, 86, 69, 102, 109, 116, 32, 16, 0, 0, 0, 1, 0, 2, 0,
   68, 172, 0, 0, 32, 98, 5, 0, 8, 0, 32, 0, 100, 97, 116, 97, 8, 0, 0, 0,
   1, 0, 0, 0, 2, 0, 0, 0]

/-- A file as `save_as_wav` writes it for the single frame `(1, 2)`, except
that its audio format tag (offset 20) is 2. -/
def wav_tag_2 : List Nat :=
  [82, 73, 70, 70, 44, 0, 0, 0, 87, 65, 86, 69, 102, 109, 116, 32, 16, 0, 0, 0, 2, 0, 2, 0,
   68, 172, 0, 0, 32, 98, 5, 0, 8, 0, 32, 0, 100, 97, 116, 97, 8, 0, 0, 0,
   1, 0, 0, 0, 2, 0, 0, 0]

/-- A file as `save_as_wav` writes it for the single frame `(1, 2)`, except
that its total-size field (offset 4) is 36: the 8 payload bytes end at offset
52, beyond the declared end 8 + 36 = 44. -/
def wav_small_riff : List Nat :=
  [82, 73, 70, 70, 36, 0, 0, 0, 87, 65, 86, 69, 102, 109, 116, 32, 16, 0, 0, 0, 3, 0, 2, 0,
   68, 172, 0, 0, 32, 98, 5, 0, 8, 0, 32, 0, 100, 97, 116, 97, 8, 0, 0, 0,
   1, 0, 0, 0, 2, 0, 0, 0]

/-- A file as `save_as_wav` writes it for the single frame `(1, 2)`, except
that its block-align field (offset 32) is 4. -/
def wav_block_align_4 : List Nat :=
  [82, 73, 70, 70, 44, 0, 0, 0, 87, 65, 86, 69, 102, 109, 116, 32, 16, 0, 0, 0, 3, 0, 2, 0,
   68, 172, 0, 0, 32, 98, 5, 0, 4, 0, 32, 0, 100, 97, 116, 97, 8, 0, 0, 0,
   1, 0, 0, 0, 2, 0, 0, 0]

/-- A file with a `LIST` chunk (payload `INFO`) between the format chunk and
the data chunk, which holds the single frame `(1, 2)`. -/
def wav_with_list : List Nat :=
  [82, 73, 70, 70, 56, 0, 0, 0, 87, 65, 86, 69, 102, 109, 116, 32, 16, 0, 0, 0, 3, 0, 2, 0,
   68, 172, 0, 0, 32, 98, 5, 0, 8, 0, 32, 0,
   76, 73, 83, 84, 4, 0, 0, 0, 73, 78, 70, 79,
   100, 97, 116, 97, 8, 0, 0, 0, 1, 0, 0, 0, 2, 0, 0, 0]

/-- A `LIST` chunk with the 3-byte payload `INF` and a zero pad byte. -/
def list_chunk : Chunk := ⟨[76, 73, 83, 84], [73, 78, 70], 0⟩

/-- The file `save_as_wav` writes for the single frame `(1, 2)`. -/
def wav_one_frame : List Nat :=
  [82, 73, 70, 70, 44, 0, 0, 0, 87, 65, 86, 69, 102, 109, 116, 32, 16, 0, 0, 0, 3, 0, 2, 0,
   68, 172, 0, 0, 32, 98, 5, 0, 8, 0, 32, 0, 100, 97, 116, 97, 8, 0, 0, 0,
   1, 0, 0, 0, 2, 0, 0, 0]

/-- The ways `read_wav` ends the process on purpose (`exit`). -/
def WavError.isExit : WavError → Bool
  | .check => true
  | .bad_file => true
  | .unsupported => true
  | _ => false

/-- The decoder ended the process with an error (`exit`) and produced no
channels. -/
def rejected : Except WavError (List Nat × List Nat) → Bool
  | .error e => e.isExit
  | .ok _ => false

/-! ## Input of the style encoder -/

/-- The effect of `std::vector<float>::resize(n, 0)` on the sample patterns. -/
def resize (v : List Nat) (n : Nat) : List Nat := v.take n ++ List.replicate (n - v.length) 0

/-- The packer `prepare_encoder_input`: returns the buffer `packed` as the call leaves it.
The frame count is an `int32_t`.  Undefined behaviour: a read beyond
`left_ch` or `right_ch`, a write beyond `packed`, and more than `2^30` frames
(`num_frames + i` overflows `int`). -/
def prepare_encoder_input (left_ch right_ch packed : List Nat) (audio_input_dim0 : Nat) :
    Except WavError (List Nat) :=
  if left_ch.length ≠ right_ch.length then .error .check else
  let num_frames : Int := to_int32 (audio_input_dim0 / 2)
  if 0 < num_frames ∧ (left_ch.length < num_frames.toNat ∨ right_ch.length < num_frames.toNat
      ∨ packed.length < 2 * num_frames.toNat ∨ 2 ^ 30 < num_frames.toNat) then
    .error .undefined else
  .ok ((List.range num_frames.toNat).foldl
    (fun packed i =>
      (packed.set i (left_ch.getD i 0)).set (num_frames.toNat + i) (right_ch.getD i 0))
    packed)

/-- Lines 331-343 of `encode_audio`: the decoded channels are checked against
the element count of the encoder's input tensor `in_data`, resized and packed
into it.  Returns the tensor as it is handed to the encoder. -/
def encode_audio_input (left_ch_input right_ch_input in_data : List Nat) :
    Except WavError (List Nat) :=
  let audio_input_dim0 := in_data.length
  if ¬ (left_ch_input.length ≤ audio_input_dim0 / 2) then .error .check else
  if ¬ (right_ch_input.length ≤ audio_input_dim0 / 2) then .error .check else
  let left_ch_input := resize left_ch_input (audio_input_dim0 / 2)
  let right_ch_input := resize right_ch_input (audio_input_dim0 / 2)
  prepare_encoder_input left_ch_input right_ch_input in_data audio_input_dim0

/-! ## Output file name -/

/-- Model of `std::tolower` on an `unsigned char` in the default `"C"` locale (the
program never calls `setlocale`): only `A` .. `Z` change. -/
def tolower (c : Nat) : Nat := if 65 ≤ c ∧ c ≤ 90 then c + 32 else c

/-- Model of `std::to_string` on a `size_t`: the decimal digits as characters. -/
def to_string (n : Nat) : List Nat := (Nat.toDigits 10 n).map Char.toNat

/-- The bytes of a string of ASCII characters. -/
def ascii (s : String) : List Nat := s.toList.map Char.toNat

/-- The function `get_filename` on the bytes of the prompt: `std::replace` of blanks (32)
by underscores (95), `std::transform` with `tolower` (the conversion of a byte
to `unsigned char` and back keeps it), then `_`, the seed and `.wav`. -/
def get_filename (prompt : List Nat) (seed : Nat) : List Nat :=
  let prompt := prompt.map (fun c => if c = 32 then 95 else c)
  let prompt := prompt.map (fun c => tolower c)
  prompt ++ [95] ++ to_string seed ++ [46, 119, 97, 118]

/-! ## Initial latent and denoising loop of `main` -/

/-- The body of the blend loop of `main` (line 628) at index `i`, on the latent
so far: `x[i] = encoded_audio[i] * (1 - sigma_max) + x[i] * sigma_max`.  A read
of `encoded_audio` at an index it does not have is undefined behaviour. -/
def main_blend_step {α : Type} [Field α] (encoded_audio : List α) (sigma_max : α)
    (acc : Except WavError (List α)) (i : Nat) : Except WavError (List α) :=
  match acc with
  | .error e => .error e
  | .ok x =>
    match encoded_audio[i]? with
    | none => .error .undefined
    | some e => .ok (x.set i (e * (1 - sigma_max) + x.getD i 0 * sigma_max))

/-- Lines 622-630 of `main`: the latent tensor `dit_x_in_data` is filled with
seeded noise and, when an input audio path was given, blended with
`encoded_audio`.  The loop counter is an `int`: past `2^31 - 1` it wraps to a
negative value, which ends the loop. -/
def main_initial_latent {α : Type} [Field α] (normal_draw : Nat → Nat → α)
    (dit_x_in_data : List α) (seed : Nat) (audio_input_path_empty : Bool)
    (encoded_audio : List α) (sigma_max : α) : Except WavError (List α) :=
  let dit_x_num_elems := dit_x_in_data.length
  let dit_x_in_data := fill_random_norm_dist normal_draw dit_x_in_data dit_x_num_elems seed
  if audio_input_path_empty then .ok dit_x_in_data else
  (List.range (min dit_x_num_elems (2 ^ 31))).foldl
    (main_blend_step encoded_audio sigma_max) (.ok dit_x_in_data)

/-- The seed `seed + i + 4564` that `main` passes to the sampler at step `i`
(`size_t` arithmetic). -/
def main_step_seed (seed i : Nat) : Nat := (seed + i + 4564) % 2 ^ 64

/-- One iteration of the denoising loop of `main` (lines 672-683): the two
sigmas of step `i`, the run of the denoiser (the external `dit_invoke`, from
the latent and the current sigma to the model output), and the sampler update.
Returns the latent. -/
def main_denoise_step {α : Type} [Field α] (normal_draw : Nat → Nat → α)
    (dit_invoke : List α → α → List α) (t_buffer : List α) (seed : Nat)
    (dit_x_in_data : List α) (i : Nat) : List α :=
  let curr_t := t_buffer.getD i 0
  let next_t := t_buffer.getD (i + 1) 0
  let dit_out_data := dit_invoke dit_x_in_data curr_t
  (sampler_ping_pong normal_draw dit_out_data dit_x_in_data dit_x_in_data.length
    curr_t next_t i (main_step_seed seed i)).2

/-- The denoising loop of `main`: `num_steps` iterations on the latent. -/
def main_denoise {α : Type} [Field α] (normal_draw : Nat → Nat → α)
    (dit_invoke : List α → α → List α) (t_buffer : List α) (seed num_steps : Nat)
    (dit_x_in_data : List α) : List α :=
  (List.range num_steps).foldl
    (fun x i => main_denoise_step normal_draw dit_invoke t_buffer seed x i) dit_x_in_data

end Audiogen

namespace Audiogen

/-! ## Bytes: little-endian round trip -/

theorem le_bytes_length (k x : Nat) : (le_bytes k x).length = k := by
  induction k generalizing x with
  | zero => rfl
  | succ k ih => simp [le_bytes, ih]

theorem le_bytes_isBytes (k x : Nat) : IsBytes (le_bytes k x) := by
  induction k generalizing x with
  | zero => intro b hb; simp [le_bytes] at hb
  | succ k ih =>
    intro b hb
    simp only [le_bytes, List.mem_cons] at hb
    rcases hb with rfl | hb
    · exact Nat.mod_lt _ (by decide)
    · exact ih _ b hb

theorem le_val_le_bytes (k x : Nat) : le_val (le_bytes k x) = x % 256 ^ k := by
  induction k generalizing x with
  | zero => simp [le_bytes, le_val, Nat.mod_one]
  | succ k ih =>
    simp only [le_bytes, le_val, ih]
    rw [pow_succ, Nat.mul_comm (256 ^ k) 256, Nat.mod_mul]

theorem le_val_le_bytes4 (x : Nat) (h : x < 2 ^ 32) : le_val (le_bytes 4 x) = x := by
  rw [le_val_le_bytes]; exact Nat.mod_eq_of_lt (by norm_num at h ⊢; exact h)

theorem le_val_lt (bs : List Nat) (h : IsBytes bs) : le_val bs < 256 ^ bs.length := by
  induction bs with
  | nil => simp [le_val]
  | cons b bs ih =>
    have hb : b < 256 := h b (List.mem_cons_self _ _)
    have := ih (fun c hc => h c (List.mem_cons_of_mem _ hc))
    simp only [le_val, List.length_cons, pow_succ]
    omega

theorem le_bytes_le_val (bs : List Nat) (h : IsBytes bs) :
    le_bytes bs.length (le_val bs) = bs := by
  induction bs with
  | nil => rfl
  | cons b bs ih =>
    have hb : b < 256 := h b (List.mem_cons_self _ _)
    have := ih (fun c hc => h c (List.mem_cons_of_mem _ hc))
    simp only [le_val, List.length_cons, le_bytes]
    rw [show (b + 256 * le_val bs) % 256 = b by omega,
        show (b + 256 * le_val bs) / 256 = le_val bs by omega, this]

/-! ## The stream -/

theorem read_ok (F : List Nat) (p n : Nat) (h : p + n ≤ F.length) :
    IStream.read ⟨F, p, false⟩ n = ((F.drop p).take n, ⟨F, p + n, false⟩) := by
  have hl : ((F.drop p).take n).length = n := by simp; omega
  simp [IStream.read, hl]

theorem store_full (buf got : List Nat) (h : buf.length ≤ got.length) :
    store buf got = got := by
  simp [store, List.drop_eq_nil_of_le h]

theorem uninit_length (junk : Nat → Nat) (off n : Nat) : (uninit junk off n).length = n := by
  simp [uninit]

theorem store_uninit (junk : Nat → Nat) (off n : Nat) (F : List Nat) (p : Nat)
    (h : p + n ≤ F.length) : store (uninit junk off n) ((F.drop p).take n) = (F.drop p).take n := by
  apply store_full
  simp [uninit_length]; omega

/-- On a file that holds the 36 header bytes every header read succeeds, and
`read_wav` is a function of the fields at their fixed offsets. -/
theorem read_wav_long (junk : Nat → Nat) (F : List Nat) (h : 36 ≤ F.length) :
    read_wav junk F =
      if field F 4 4 = 0 then .error .check else
      if F.take 4 ≠ tag_riff ∨ (F.drop 8).take 4 ≠ tag_wave then .error .bad_file else
      if (F.drop 12).take 4 ≠ tag_fmt then .error .check else
      if field F 16 4 < 16 then .error .check else
      if ¬ (field F 20 2 = 3 ∨ field F 20 2 = 1 ∨ field F 20 2 = 0xFFFE)
          ∨ field F 22 2 ≠ 2 ∨ field F 24 4 ≠ 44100 ∨ field F 34 2 ≠ 32
        then .error .unsupported else
      match scan_data (8 + field F 4 4) (F.length + 1) ⟨F, 36 + (field F 16 4 - 16), false⟩ with
      | .error e => .error e
      | .ok (d, s) => read_frames s d (field F 32 2) := by
  have r0 := read_ok F 0 4 (by omega)
  have r4 := read_ok F 4 4 (by omega)
  have r8 := read_ok F 8 4 (by omega)
  have r12 := read_ok F 12 4 (by omega)
  have r16 := read_ok F 16 4 (by omega)
  have r20 := read_ok F 20 2 (by omega)
  have r22 := read_ok F 22 2 (by omega)
  have r24 := read_ok F 24 4 (by omega)
  have r28 := read_ok F 28 4 (by omega)
  have r32 := read_ok F 32 2 (by omega)
  have r34 := read_ok F 34 2 (by omega)
  simp only [Nat.zero_add, List.drop_zero, Nat.reduceAdd] at r0 r4 r8 r12 r16 r20 r22 r24 r28 r32 r34
  have s0 := store_uninit junk 0 4 F 0 (by omega)
  have s4 := store_uninit junk 4 4 F 4 (by omega)
  have s8 := store_uninit junk 8 4 F 8 (by omega)
  have s12 := store_uninit junk 12 4 F 12 (by omega)
  have s16 := store_uninit junk 16 4 F 16 (by omega)
  have s20 := store_uninit junk 20 2 F 20 (by omega)
  have s22 := store_uninit junk 22 2 F 22 (by omega)
  have s24 := store_uninit junk 24 4 F 24 (by omega)
  have s32 := store_uninit junk 32 2 F 32 (by omega)
  have s34 := store_uninit junk 34 2 F 34 (by omega)
  simp only [List.drop_zero] at s0
  simp only [read_wav, IStream.openFile, r0, r4, r8, r12, r16, r20, r22, r24, r28, r32, r34,
    s0, s4, s8, s12, s16, s20, s22, s24, s32, s34, field, k_audio_num_channels, k_audio_sr,
    k_bits_per_sample, IStream.seekg_cur]
  have hs : ∀ x : Nat, (if 16 < x then
        (if false = true then (⟨F, 36, false⟩ : IStream) else ⟨F, 36 + (x - 16), false⟩)
      else ⟨F, 36, false⟩) = (⟨F, 36 + (x - 16), false⟩ : IStream) := by
    intro x
    by_cases hx : 16 < x
    · simp [hx]
    · have : x - 16 = 0 := by omega
      simp [hx, this]
  simp only [hs, Nat.zero_add]
  simp

/-! ## Lists cut into blocks of a fixed size -/

theorem foldl_append_flatMap (f : Nat → List Nat) (n : Nat) (init : List Nat) :
    (List.range n).foldl (fun out i => out ++ f i) init = init ++ (List.range n).flatMap f := by
  induction n with
  | zero => simp
  | succ n ih =>
    rw [List.range_succ, List.foldl_append, ih, List.flatMap_append]
    simp [List.append_assoc]

theorem flatMap_range_length (f : Nat → List Nat) (k n : Nat)
    (hf : ∀ i, i < n → (f i).length = k) : ((List.range n).flatMap f).length = k * n := by
  induction n with
  | zero => simp
  | succ n ih =>
    rw [List.range_succ, List.flatMap_append, List.length_append,
      ih (fun i hi => hf i (by omega))]
    simp [hf n (by omega), Nat.mul_succ]

/-- Block `i` of a concatenation of `n` blocks of `k` elements. -/
theorem flatMap_range_block (f : Nat → List Nat) (k n i : Nat)
    (hf : ∀ j, j < n → (f j).length = k) (hi : i < n) :
    (((List.range n).flatMap f).drop (k * i)).take k = f i := by
  induction n with
  | zero => omega
  | succ n ih =>
    have hlen := flatMap_range_length f k n (fun j hj => hf j (by omega))
    rw [List.range_succ, List.flatMap_append]
    simp only [List.flatMap_cons, List.flatMap_nil, List.append_nil]
    rcases Nat.lt_succ_iff_lt_or_eq.mp hi with hlt | rfl
    · have h1 : k * i + k ≤ k * n := by
        calc k * i + k = k * (i + 1) := by ring
          _ ≤ k * n := Nat.mul_le_mul_left k hlt
      rw [List.drop_append_of_le_length (by omega),
        List.take_append_of_le_length (by rw [List.length_drop, hlen]; omega)]
      exact ih (fun j hj => hf j (by omega)) hlt
    · rw [List.drop_append_eq_append_drop, hlen, List.drop_eq_nil_of_le (by omega)]
      simp [hf i (by omega)]

/-- Cutting a list into consecutive blocks of `k` elements and gluing them
back gives the list. -/
theorem flatMap_range_slices (P : List Nat) (k m : Nat) :
    (List.range m).flatMap (fun j => (P.drop (k * j)).take k) = P.take (k * m) := by
  induction m with
  | zero => simp
  | succ m ih =>
    rw [List.range_succ, List.flatMap_append, ih, Nat.mul_succ, List.take_add]
    simp

/-! ## `save_as_wav`: the bytes written -/

/-- The bytes `save_as_wav` emits: the 44 header bytes followed by one 8-byte
block per frame. -/
theorem save_as_wav_eq (left_ch right_ch : List Nat) (n : Nat) (h : 44 + 8 * n < 2 ^ 31) :
    save_as_wav left_ch right_ch n =
      (tag_riff ++ le_bytes 4 (36 + 8 * n) ++ tag_wave ++ tag_fmt ++ le_bytes 4 16
        ++ le_bytes 2 3 ++ le_bytes 2 2 ++ le_bytes 4 44100 ++ le_bytes 4 352800
        ++ le_bytes 2 8 ++ le_bytes 2 32 ++ tag_data ++ le_bytes 4 (8 * n))
      ++ (List.range n).flatMap
          (fun i => le_bytes 4 (left_ch.getD i 0) ++ le_bytes 4 (right_ch.getD i 0)) := by
  have h1 : n * 2 * 4 % 2 ^ 32 = 8 * n := by omega
  have h2 : (44 + 8 * n - 8) % 2 ^ 32 = 36 + 8 * n := by omega
  have hf : (fun (out : List Nat) (i : Nat) =>
        out ++ le_bytes 4 (left_ch.getD i 0) ++ le_bytes 4 (right_ch.getD i 0))
      = (fun out i => out ++ (fun i => le_bytes 4 (left_ch.getD i 0)
          ++ le_bytes 4 (right_ch.getD i 0)) i) := by
    funext out i; simp [List.append_assoc]
  simp only [save_as_wav, h1, h2, k_audio_sr, k_audio_num_channels, k_bits_per_sample, hf,
    foldl_append_flatMap]

/-! ## The chunk scan -/

theorem read_short (F : List Nat) (p n : Nat) (h : F.length < p + n) (hn : 0 < n) :
    (IStream.read ⟨F, p, false⟩ n).2.failed = true := by
  simp [IStream.read]; omega

theorem drop_shift (F G : List Nat) (p q m : Nat) (hs : F.drop p = G.drop q) :
    F.drop (p + m) = G.drop (q + m) := by
  rw [← List.drop_drop, ← List.drop_drop, hs]

/-- One iteration of the chunk scan on a good stream, by offsets. -/
theorem scan_data_succ (e fuel : Nat) (F : List Nat) (p : Nat) :
    scan_data e (fuel + 1) ⟨F, p, false⟩ =
      if F.length < p + 8 then .error .check
      else if (F.drop p).take 4 = tag_data then
        (if p + 8 + field F (p + 4) 4 ≤ e then .ok (field F (p + 4) 4, ⟨F, p + 8, false⟩)
         else .error .check)
      else scan_data e fuel
        ⟨F, p + 8 + (field F (p + 4) 4 + field F (p + 4) 4 % 2) % 2 ^ 32, false⟩ := by
  by_cases h4 : F.length < p + 4
  · have := read_short F p 4 h4 (by omega)
    have h8 : F.length < p + 8 := by omega
    simp [scan_data, IStream.tellg, this, h8]
  · have r1 := read_ok F p 4 (by omega)
    by_cases h8 : F.length < p + 8
    · have := read_short F (p + 4) 4 (by omega) (by omega)
      simp [scan_data, IStream.tellg, r1, this, h8]
    · have r2 := read_ok F (p + 4) 4 (by omega)
      simp only [scan_data, IStream.tellg, r1, r2, IStream.seekg_cur, field, h8]
      simp [Nat.add_assoc]

/-- With a budget above the number of bytes left, the result of the scan does
not depend on the budget. -/
theorem scan_data_fuel (e : Nat) (F : List Nat) (f f' p : Nat)
    (hf : F.length - p < f) (hf' : F.length - p < f') :
    scan_data e f ⟨F, p, false⟩ = scan_data e f' ⟨F, p, false⟩ := by
  induction f generalizing f' p with
  | zero => omega
  | succ f ih =>
    obtain ⟨g, rfl⟩ : ∃ g, f' = g + 1 := ⟨f' - 1, by omega⟩
    rw [scan_data_succ, scan_data_succ]
    by_cases h8 : F.length < p + 8
    · simp [h8]
    · simp only [h8, if_false]
      split
      · rfl
      · exact ih _ _ (by omega) (by omega)

/-- The scan never runs out of its budget when the budget exceeds the number of bytes
left. -/
theorem scan_data_terminates (e : Nat) (F : List Nat) (f p : Nat) (hf : F.length - p < f) :
    scan_data e f ⟨F, p, false⟩ ≠ .error .out_of_fuel := by
  induction f generalizing p with
  | zero => omega
  | succ f ih =>
    rw [scan_data_succ]
    by_cases h8 : F.length < p + 8
    · simp [h8]
    · simp only [h8, if_false]
      split
      · split <;> simp
      · exact ih _ (by omega)

/-- A successful scan leaves a good stream on the same file. -/
theorem scan_data_ok_stream (e : Nat) (F : List Nat) (f p d : Nat) (s : IStream)
    (h : scan_data e f ⟨F, p, false⟩ = .ok (d, s)) :
    s = ⟨F, s.pos, false⟩ ∧ p + 8 ≤ s.pos ∧ s.pos ≤ F.length ∧ s.pos + d ≤ e
      ∧ (F.drop (s.pos - 8)).take 4 = tag_data ∧ field F (s.pos - 4) 4 = d := by
  induction f generalizing p with
  | zero => simp [scan_data] at h
  | succ f ih =>
    rw [scan_data_succ] at h
    by_cases h8 : F.length < p + 8
    · simp [h8] at h
    · simp only [h8, if_false] at h
      split at h
      · rename_i hd
        split at h
        · rename_i he
          simp only [Except.ok.injEq, Prod.mk.injEq] at h
          obtain ⟨h1, h2⟩ := h
          subst h2
          simp only [Nat.add_sub_cancel, true_and]
          refine ⟨by omega, by omega, by omega, hd, ?_⟩
          rw [show p + 8 - 4 = p + 4 by omega]; exact h1
        · simp at h
      · have := ih _ h
        refine ⟨this.1, by omega, this.2.2.1, this.2.2.2⟩

/-- The scan looks only at the bytes from the read position on: two files that agree
from their read positions on, with the same room left before the end of the
container, give the same result up to the shift of positions. -/
theorem scan_data_shift (F G : List Nat) (e e' f p q : Nat)
    (hs : F.drop p = G.drop q) (he : e + q = e' + p) :
    scan_data e' f ⟨G, q, false⟩ =
      (scan_data e f ⟨F, p, false⟩).map (fun x => (x.1, ⟨G, x.2.pos + q - p, false⟩)) := by
  induction f generalizing p q with
  | zero => simp [scan_data, Except.map]
  | succ f ih =>
    have hl : F.length - p = G.length - q := by
      have := congrArg List.length hs
      simpa using this
    have hlen : (F.length < p + 8) ↔ (G.length < q + 8) := by
      by_cases hp : p ≤ F.length
      · by_cases hq : q ≤ G.length
        · omega
        · have h0 : G.drop q = [] := List.drop_eq_nil_of_le (by omega)
          rw [h0] at hs
          have := congrArg List.length hs
          simp at this; omega
      · have h0 : F.drop p = [] := List.drop_eq_nil_of_le (by omega)
        rw [h0] at hs
        have := congrArg List.length hs
        simp at this; omega
    have hf4 : field F (p + 4) 4 = field G (q + 4) 4 := by
      simp only [field]
      rw [drop_shift F G p q 4 hs]
    rw [scan_data_succ, scan_data_succ]
    by_cases h8 : F.length < p + 8
    · simp [h8, hlen.mp h8, Except.map]
    · have h8' : ¬ G.length < q + 8 := fun h => h8 (hlen.mpr h)
      simp only [h8, h8', if_false, hs, hf4]
      split
      · have hee : (q + 8 + field G (q + 4) 4 ≤ e') ↔ (p + 8 + field G (q + 4) 4 ≤ e) := by omega
        by_cases hc : p + 8 + field G (q + 4) 4 ≤ e
        · simp only [hc, hee.mpr hc, if_true, Except.map]
          congr 3; omega
        · have hc' : ¬ q + 8 + field G (q + 4) 4 ≤ e' := fun h => hc (hee.mp h)
          simp [hc, hc', Except.map]
      · rw [ih (p + 8 + (field G (q + 4) 4 + field G (q + 4) 4 % 2) % 2 ^ 32)
          (q + 8 + (field G (q + 4) 4 + field G (q + 4) 4 % 2) % 2 ^ 32)
          (by rw [Nat.add_assoc, Nat.add_assoc]; exact drop_shift F G p q _ hs)
          (by omega)]
        cases hres : scan_data e f
            ⟨F, p + 8 + (field G (q + 4) 4 + field G (q + 4) 4 % 2) % 2 ^ 32, false⟩ with
        | error err => simp [Except.map]
        | ok x =>
          have hx := scan_data_ok_stream _ _ _ _ _ _ hres
          simp only [Except.map, Except.ok.injEq, Prod.mk.injEq, true_and, IStream.mk.injEq,
            and_true]
          omega

/-! ## Reading the frames -/

/-- The frame reader `read_frames` on a good stream looks only at the bytes from the read
position on. -/
theorem read_frames_good (F : List Nat) (p d ba : Nat) :
    read_frames ⟨F, p, false⟩ d ba =
      if ba = 0 then .error .undefined else
      if (d / ba * 2) % 2 ^ 32 * 4 < ((F.drop p).take d).length then .error .undefined else
      if 2 ^ 30 < d / ba then .error .undefined else
      .ok ((List.range (d / ba)).map (fun i =>
              f32_at (store (List.replicate ((d / ba * 2) % 2 ^ 32 * 4) 0) ((F.drop p).take d))
                (i * 2 + 0)),
           (List.range (d / ba)).map (fun i =>
              f32_at (store (List.replicate ((d / ba * 2) % 2 ^ 32 * 4) 0) ((F.drop p).take d))
                (i * 2 + 1))) := by
  simp only [read_frames, IStream.read, k_audio_num_channels]
  rfl

theorem read_frames_shift (F G : List Nat) (p q d ba : Nat) (hs : F.drop p = G.drop q) :
    read_frames ⟨F, p, false⟩ d ba = read_frames ⟨G, q, false⟩ d ba := by
  rw [read_frames_good, read_frames_good, hs]

/-- With block-align 8 and the whole payload `P` of `8 * n` bytes in the file,
the channels are the even and the odd 32-bit words of the payload. -/
theorem read_frames_payload (F : List Nat) (p n : Nat) (hn : n ≤ 2 ^ 28)
    (hlen : p + 8 * n ≤ F.length) :
    read_frames ⟨F, p, false⟩ (8 * n) 8 =
      .ok ((List.range n).map (fun i => f32_at ((F.drop p).take (8 * n)) (2 * i)),
           (List.range n).map (fun i => f32_at ((F.drop p).take (8 * n)) (2 * i + 1))) := by
  have hdiv : 8 * n / 8 = n := by omega
  have hmod : n * 2 % 2 ^ 32 * 4 = 8 * n := by omega
  have hgot : ((F.drop p).take (8 * n)).length = 8 * n := by simp; omega
  rw [read_frames_good, hdiv, hmod, hgot,
    store_full _ _ (by rw [hgot, List.length_replicate])]
  have h1 : ¬ (8 * n < 8 * n) := by omega
  have h2 : ¬ (2 ^ 30 < n) := by omega
  simp only [h1, h2, if_false, Nat.add_zero, Nat.mul_comm _ 2]
  simp

/-- The two words of the 8-byte block `i` of a payload. -/
theorem f32_at_even (P : List Nat) (i : Nat) :
    f32_at P (2 * i) = le_val (((P.drop (8 * i)).take 8).take 4) := by
  simp only [f32_at, List.take_take]
  rw [show 4 * (2 * i) = 8 * i by ring]; rfl

theorem f32_at_odd (P : List Nat) (i : Nat) :
    f32_at P (2 * i + 1) = le_val (((P.drop (8 * i)).take 8).drop 4) := by
  simp only [f32_at, List.drop_take, List.drop_drop]
  rw [show 4 * (2 * i + 1) = 8 * i + 4 by ring]

theorem map_getD_range (l : List Nat) (n : Nat) (h : l.length = n) :
    (List.range n).map (fun i => l.getD i 0) = l := by
  apply List.ext_getElem
  · simp [h]
  · intro i h1 h2
    simp [List.getD_eq_getElem?_getD, List.getElem?_eq_getElem h2]

/-! ## Files in the layout `save_as_wav` writes -/

/-- The 44 header bytes one by one, for a total-size field `a` and a data size
`b`. -/
theorem wav_header_eq (a b : Nat) :
    tag_riff ++ le_bytes 4 a ++ tag_wave ++ tag_fmt ++ le_bytes 4 16
        ++ le_bytes 2 3 ++ le_bytes 2 2 ++ le_bytes 4 44100 ++ le_bytes 4 352800
        ++ le_bytes 2 8 ++ le_bytes 2 32 ++ tag_data ++ le_bytes 4 b
      = wav_header_bytes a b := rfl

/-- The decoder on a file made of the 44 header bytes `save_as_wav` writes for `n` frames
followed by a payload `P` of `8 * n` bytes. -/
theorem read_wav_canonical (junk : Nat → Nat) (n : Nat) (P : List Nat)
    (hsz : 44 + 8 * n < 2 ^ 31) (hP : P.length = 8 * n) :
    read_wav junk
        ((tag_riff ++ le_bytes 4 (36 + 8 * n) ++ tag_wave ++ tag_fmt ++ le_bytes 4 16
          ++ le_bytes 2 3 ++ le_bytes 2 2 ++ le_bytes 4 44100 ++ le_bytes 4 352800
          ++ le_bytes 2 8 ++ le_bytes 2 32 ++ tag_data ++ le_bytes 4 (8 * n)) ++ P) =
      .ok ((List.range n).map (fun i => f32_at P (2 * i)),
           (List.range n).map (fun i => f32_at P (2 * i + 1))) := by
  rw [wav_header_eq]
  generalize hF : wav_header_bytes (36 + 8 * n) (8 * n) ++ P = F
  have hlen : F.length = 44 + 8 * n := by
    rw [← hF]; simp [wav_header_bytes, hP]; omega
  have f4 : field F 4 4 = 36 + 8 * n := by
    rw [← hF]; simp [field, wav_header_bytes, le_val]; omega
  have f0 : F.take 4 = tag_riff := by
    rw [← hF]; simp [wav_header_bytes, tag_riff]
  have f8 : (F.drop 8).take 4 = tag_wave := by
    rw [← hF]; simp [wav_header_bytes, tag_wave]
  have f12 : (F.drop 12).take 4 = tag_fmt := by
    rw [← hF]; simp [wav_header_bytes, tag_fmt]
  have f16 : field F 16 4 = 16 := by
    rw [← hF]; simp [field, wav_header_bytes, le_val]
  have f20 : field F 20 2 = 3 := by
    rw [← hF]; simp [field, wav_header_bytes, le_val]
  have f22 : field F 22 2 = 2 := by
    rw [← hF]; simp [field, wav_header_bytes, le_val]
  have f24 : field F 24 4 = 44100 := by
    rw [← hF]; simp [field, wav_header_bytes, le_val]
  have f32 : field F 32 2 = 8 := by
    rw [← hF]; simp [field, wav_header_bytes, le_val]
  have f34 : field F 34 2 = 32 := by
    rw [← hF]; simp [field, wav_header_bytes, le_val]
  have f36 : (F.drop 36).take 4 = tag_data := by
    rw [← hF]; simp [wav_header_bytes, tag_data]
  have f40 : field F 40 4 = 8 * n := by
    rw [← hF]; simp [field, wav_header_bytes, le_val]; omega
  have f44 : F.drop 44 = P := by
    rw [← hF]; simp [wav_header_bytes]
  rw [read_wav_long junk F (by omega)]
  simp only [f4, f0, f8, f12, f16, f20, f22, f24, f32, f34]
  rw [scan_data_succ]
  have h8 : ¬ (F.length < 36 + (16 - 16) + 8) := by omega
  simp only [Nat.sub_self, Nat.add_zero, f36, f40, hlen] 
  have hP2 : P.take (8 * n) = P := by rw [← hP]; exact List.take_length _
  have := read_frames_payload F 44 n (by omega) (by omega)
  rw [f44, hP2] at this
  have hfit : 44 + 8 * n ≤ 8 + (36 + 8 * n) := by omega
  simp [this, hfit]

theorem not_rejected_of_ok (r : Except WavError (List Nat × List Nat)) (x : List Nat × List Nat)
    (h : r = .ok x) : rejected r = false := by
  subst h; rfl

/-- Along a chunk walk the scan reaches the data chunk and applies the bound
check to it. -/
theorem scan_data_path (e : Nat) (F : List Nat) (pos p : Nat) (h : DataChunkAt F pos p) :
    ∀ fuel, F.length - pos < fuel →
      scan_data e fuel ⟨F, pos, false⟩ =
        if p + field F (p - 4) 4 ≤ e then .ok (field F (p - 4) 4, ⟨F, p, false⟩)
        else .error .check := by
  induction h with
  | here pos hlen hid =>
    intro fuel hf
    obtain ⟨g, rfl⟩ : ∃ g, fuel = g + 1 := ⟨fuel - 1, by omega⟩
    rw [scan_data_succ]
    have h8 : ¬ F.length < pos + 8 := by omega
    simp only [h8, if_false, hid, if_true]
    rw [show pos + 8 - 4 = pos + 4 by omega]
  | skip pos p hlen hid _ ih =>
    intro fuel hf
    obtain ⟨g, rfl⟩ : ∃ g, fuel = g + 1 := ⟨fuel - 1, by omega⟩
    rw [scan_data_succ]
    have h8 : ¬ F.length < pos + 8 := by omega
    simp only [h8, if_false, hid]
    exact ih g (by omega)

/-! ## Loops that store into a buffer -/

theorem foldl_length {α : Type} (f : List α → Nat → List α)
    (hf : ∀ a i, (f a i).length = a.length) (l : List Nat) (arr : List α) :
    (l.foldl f arr).length = arr.length := by
  induction l generalizing arr with
  | nil => rfl
  | cons x l ih => simp [List.foldl_cons, ih, hf]

theorem getD_set {α : Type} (d : α) (l : List α) (i j : Nat) (a : α) :
    (l.set i a).getD j d = if i = j ∧ i < l.length then a else l.getD j d := by
  simp only [List.getD_eq_getElem?_getD, List.getElem?_set]
  by_cases hij : i = j
  · subst hij
    by_cases hi : i < l.length
    · simp [hi]
    · simp [hi, List.getElem?_eq_none (Nat.le_of_not_lt hi)]
  · simp [hij]

/-- A loop `for i < n: a[i] = g i a[i]` leaves `g j a[j]` at every index below
`n` and the rest untouched. -/
theorem foldl_set_getD {α : Type} (d : α) (g : Nat → α → α) (n : Nat) (arr : List α) :
    ∀ j, ((List.range n).foldl (fun a i => a.set i (g i (a.getD i d))) arr).getD j d
      = if j < n ∧ j < arr.length then g j (arr.getD j d) else arr.getD j d := by
  induction n with
  | zero => simp
  | succ n ih =>
    intro j
    rw [List.range_succ, List.foldl_append]
    simp only [List.foldl_cons, List.foldl_nil]
    have hlen := foldl_length (fun a i => a.set i (g i (a.getD i d)))
      (fun a i => List.length_set _ _ _) (List.range n) arr
    rw [getD_set, hlen, ih n, ih j]
    by_cases hjn : n = j
    · subst hjn
      by_cases hj : n < arr.length
      · simp [hj]
      · simp [hj]
    · have h1 : (j < n + 1) ↔ (j < n) := by omega
      simp [hjn, h1]

/-! ## The noise schedule -/

theorem to_int32_small (n : Nat) (h : n < 2 ^ 31) : to_int32 n = (n : Int) := by
  have h1 : n % 2 ^ 32 = n := Nat.mod_eq_of_lt (by omega)
  simp only [to_int32, h1]
  rw [if_pos h]

/-- On a buffer of at least two and fewer than `2^31` elements `fill_sigmas`
returns a buffer of the same length that starts with `sigma_max` and ends with
`k_sigma_min`. -/
theorem fill_sigmas_boundary {α : Type} [Field α] (exp : α → α) (arr : List α)
    (start end_ sigma_max : α) (h2 : 2 ≤ arr.length) (hmax : arr.length < 2 ^ 31) :
    ∃ out, fill_sigmas exp arr start end_ sigma_max = some out ∧ out.length = arr.length
      ∧ out[0]? = some sigma_max ∧ out[arr.length - 1]? = some 0 := by
  have hsz : ¬ ((arr.length : Int) ≤ 0) := by omega
  simp only [fill_sigmas, to_int32_small _ hmax, hsz, if_false, Int.toNat_ofNat]
  refine ⟨_, rfl, ?_, ?_, ?_⟩
  · simp only [List.length_set]
    rw [foldl_length _ (fun a i => List.length_set _ _ _),
      foldl_length _ (fun a i => List.length_set _ _ _)]
    simp
  · rw [List.getElem?_set_ne (by omega), List.getElem?_set_self]
    rw [foldl_length _ (fun a i => List.length_set _ _ _),
      foldl_length _ (fun a i => List.length_set _ _ _)]
    simp; omega
  · rw [List.getElem?_set_self]
    · rfl
    · simp only [List.length_set]
      rw [foldl_length _ (fun a i => List.length_set _ _ _),
        foldl_length _ (fun a i => List.length_set _ _ _)]
      simp; omega

/-- At `2^31 - 1` steps the buffer has `2^31` elements, `sz` is negative and
`fill_sigmas` indexes `arr[sz - 1]`: undefined behaviour. -/
theorem main_sigmas_int32_overflow :
    main_sigmas Real.exp Real.log 1 (2 ^ 31 - 1) = none := by
  have hsz : ∀ arr : List ℝ, arr.length = 2 ^ 31 → to_int32 arr.length ≤ 0 := by
    intro arr h
    rw [h]
    simp [to_int32]
  have hnone : ∀ (arr : List ℝ) (a b c : ℝ), arr.length = 2 ^ 31 →
      fill_sigmas Real.exp arr a b c = none := by
    intro arr a b c h
    simp only [fill_sigmas, hsz arr h, if_true]
  unfold main_sigmas
  exact hnone _ _ _ _ (by rw [List.length_replicate]; norm_num)

/-! ## Re-encoding a decoded file -/

theorem isBytes_take (F : List Nat) (h : IsBytes F) (n : Nat) : IsBytes (F.take n) :=
  fun b hb => h b (List.mem_of_mem_take hb)

theorem isBytes_drop (F : List Nat) (h : IsBytes F) (n : Nat) : IsBytes (F.drop n) :=
  fun b hb => h b (List.mem_of_mem_drop hb)

/-- Writing back the two words read from block `i` of a payload of bytes gives
the block. -/
theorem le_bytes_f32_at (P : List Nat) (hP : IsBytes P) (n i : Nat) (hlen : P.length = 8 * n)
    (hi : i < n) :
    le_bytes 4 (f32_at P (2 * i)) ++ le_bytes 4 (f32_at P (2 * i + 1))
      = (P.drop (8 * i)).take 8 := by
  have hB : ((P.drop (8 * i)).take 8).length = 8 := by simp; omega
  have hBb : IsBytes ((P.drop (8 * i)).take 8) := isBytes_take _ (isBytes_drop _ hP _) _
  have h1 := le_bytes_le_val (((P.drop (8 * i)).take 8).take 4) (isBytes_take _ hBb _)
  have h2 := le_bytes_le_val (((P.drop (8 * i)).take 8).drop 4) (isBytes_drop _ hBb _)
  rw [show (((P.drop (8 * i)).take 8).take 4).length = 4 by
    rw [List.length_take, hB]; rfl] at h1
  rw [show (((P.drop (8 * i)).take 8).drop 4).length = 4 by
    rw [List.length_drop, hB]] at h2
  rw [f32_at_even, f32_at_odd, h1, h2, List.take_append_drop]

/-! ## Files shorter than the header -/

theorem read_good_back (s : IStream) (n : Nat) (hn : 0 < n)
    (h : (s.read n).2.failed = false) :
    s.failed = false ∧ (s.read n).2.pos = s.pos + n ∧ s.pos + n ≤ s.data.length
      ∧ (s.read n).2.data = s.data := by
  unfold IStream.read at h ⊢
  by_cases hf : s.failed = true
  · simp [hf] at h
  · simp only [hf] at h ⊢
    simp only [Bool.false_eq_true, if_false, decide_eq_false_iff_not, Nat.not_lt,
      List.length_take, List.length_drop] at h ⊢
    refine ⟨by simp, ?_, ?_, trivial⟩ <;> omega

theorem scan_data_failed (e fuel : Nat) (s : IStream) (h : s.failed = true) :
    scan_data e (fuel + 1) s = .error .check := by
  simp [scan_data, IStream.tellg, h]

/-- A file that does not hold the 36 header bytes is rejected, whatever the
uninitialised locals held. -/
theorem read_wav_short (junk : Nat → Nat) (F : List Nat) (h : F.length < 36) :
    rejected (read_wav junk F) = true := by
  simp only [read_wav]
  generalize h1 : (IStream.openFile F).read 4 = r1
  generalize h2 : r1.2.read 4 = r2
  generalize h3 : r2.2.read 4 = r3
  generalize h4 : r3.2.read 4 = r4
  generalize h5 : r4.2.read 4 = r5
  generalize h6 : r5.2.read 2 = r6
  generalize h7 : r6.2.read 2 = r7
  generalize h8 : r7.2.read 4 = r8
  generalize h9 : r8.2.read 4 = r9
  generalize h10 : r9.2.read 2 = r10
  generalize h11 : r10.2.read 2 = r11
  have hfail : r11.2.failed = true := by
    subst h1 h2 h3 h4 h5 h6 h7 h8 h9 h10 h11
    by_contra hc
    have hc : _ = false := Bool.eq_false_iff.mpr hc
    obtain ⟨c10, p11, l11, d11⟩ := read_good_back _ 2 (by omega) hc
    obtain ⟨c9, p10, l10, d10⟩ := read_good_back _ 2 (by omega) c10
    obtain ⟨c8, p9, l9, d9⟩ := read_good_back _ 4 (by omega) c9
    obtain ⟨c7, p8, l8, d8⟩ := read_good_back _ 4 (by omega) c8
    obtain ⟨c6, p7, l7, d7⟩ := read_good_back _ 2 (by omega) c7
    obtain ⟨c5, p6, l6, d6⟩ := read_good_back _ 2 (by omega) c6
    obtain ⟨c4, p5, l5, d5⟩ := read_good_back _ 4 (by omega) c5
    obtain ⟨c3, p4, l4, d4⟩ := read_good_back _ 4 (by omega) c4
    obtain ⟨c2, p3, l3, d3⟩ := read_good_back _ 4 (by omega) c3
    obtain ⟨c1, p2, l2, d2⟩ := read_good_back _ 4 (by omega) c2
    obtain ⟨c0, p1, l1, d1⟩ := read_good_back _ 4 (by omega) c1
    have e10 := congrArg List.length d10
    have e9 := congrArg List.length d9
    have e8 := congrArg List.length d8
    have e7 := congrArg List.length d7
    have e6 := congrArg List.length d6
    have e5 := congrArg List.length d5
    have e4 := congrArg List.length d4
    have e3 := congrArg List.length d3
    have e2 := congrArg List.length d2
    have e1 := congrArg List.length d1
    have e0 : (IStream.openFile F).data.length = F.length := rfl
    have q0 : (IStream.openFile F).pos = 0 := rfl
    omega
  generalize hS : (if 16 < le_val (store (uninit junk 16 4) r5.1)
    then r11.2.seekg_cur (le_val (store (uninit junk 16 4) r5.1) - 16) else r11.2) = S
  have hSf : S.failed = true := by
    rw [← hS]
    split
    · simp [IStream.seekg_cur, hfail]
    · exact hfail
  rw [scan_data_failed _ _ S hSf]
  split_ifs
  · rfl
  · rfl
  · rfl
  · rfl
  · rfl
  · rfl
  · rfl

/-- A file `read_wav` accepts holds the 36 header bytes. -/
theorem read_wav_ok_length (junk : Nat → Nat) (F : List Nat) (x : List Nat × List Nat)
    (h : read_wav junk F = .ok x) : 36 ≤ F.length := by
  by_contra hc
  have hr := read_wav_short junk F (by omega)
  rw [not_rejected_of_ok _ x h] at hr
  cases hr

/-! ## Slices of concatenations -/

theorem slice_append_right (X Y : List Nat) (m off n : Nat) (hX : X.length = m) :
    ((X ++ Y).drop (m + off)).take n = (Y.drop off).take n := by
  subst hX; rw [List.drop_append]

theorem slice_append_left (X Y : List Nat) (off n : Nat) (h : off + n ≤ X.length) :
    ((X ++ Y).drop off).take n = (X.drop off).take n := by
  rw [List.drop_append_of_le_length (by omega),
    List.take_append_of_le_length (by rw [List.length_drop]; omega)]

theorem slice_take (F : List Nat) (m off n : Nat) (h : off + n ≤ m) :
    ((F.take m).drop off).take n = (F.drop off).take n := by
  rw [List.drop_take, List.take_take, Nat.min_eq_left (by omega)]

/-! ## Walking over chunks -/

theorem chunkWalk_le (F : List Nat) (a b : Nat) (h : ChunkWalk F a b) : a ≤ b := by
  induction h with
  | refl pos => exact Nat.le_refl _
  | step pos b _ _ _ ih => omega

/-- The scan on a file `G` that agrees with `F` on the byte range `[a, b)`,
shifted by `k`, steps over the chunks of a walk of `F` from `a` to `b`. -/
theorem scan_data_walk (F G : List Nat) (e k a b : Nat) (hw : ChunkWalk F a b) :
    (∀ pos n, a ≤ pos → pos + n ≤ b → (G.drop (pos + k)).take n = (F.drop pos).take n) →
    ∀ f f', G.length - (a + k) < f → G.length - (b + k) < f' →
      scan_data e f ⟨G, a + k, false⟩ = scan_data e f' ⟨G, b + k, false⟩ := by
  induction hw with
  | refl pos =>
    intro _ f f' hf hf'
    exact scan_data_fuel e G f f' _ hf hf'
  | step pos b hlen hid hrest ih =>
    intro hag f f' hf hf'
    have hle := chunkWalk_le F _ _ hrest
    have h8 := hag pos 8 (Nat.le_refl _) (by omega)
    have hG8 : pos + k + 8 ≤ G.length := by
      have := congrArg List.length h8
      simp only [List.length_take, List.length_drop] at this
      omega
    have hidG : (G.drop (pos + k)).take 4 ≠ tag_data := by
      rw [hag pos 4 (Nat.le_refl _) (by omega)]; exact hid
    have hfield : field G (pos + k + 4) 4 = field F (pos + 4) 4 := by
      simp only [field]
      rw [show pos + k + 4 = pos + 4 + k by omega, hag (pos + 4) 4 (by omega) (by omega)]
    obtain ⟨g, rfl⟩ : ∃ g, f = g + 1 := ⟨f - 1, by omega⟩
    rw [scan_data_succ]
    have hnl : ¬ G.length < pos + k + 8 := by omega
    simp only [hnl, if_false, hidG, hfield]
    rw [show pos + k + 8 + (field F (pos + 4) 4 + field F (pos + 4) 4 % 2) % 2 ^ 32
      = pos + 8 + (field F (pos + 4) 4 + field F (pos + 4) 4 % 2) % 2 ^ 32 + k by omega]
    exact ih (fun p n hp hn => hag p n (by omega) hn) g f' (by omega) hf'

theorem chunk_bytes_length (c : Chunk) (hid : c.id.length = 4) :
    c.bytes.length = 8 + c.payload.length + c.payload.length % 2 := by
  unfold Chunk.bytes
  by_cases h : c.payload.length % 2 = 1
  · simp [h, hid, le_bytes_length]; omega
  · have h0 : c.payload.length % 2 = 0 := by omega
    simp [h0, hid, le_bytes_length]; omega

/-- The scan steps over a sequence of well-formed chunks whose ids are not
`data`. -/
theorem scan_data_skip_chunks (G : List Nat) (e : Nat) (chunks : List Chunk) :
    ∀ (q : Nat) (rest : List Nat), G.drop q = chunks.flatMap Chunk.bytes ++ rest →
    (∀ c ∈ chunks, c.id.length = 4 ∧ c.id ≠ tag_data) →
    (chunks.flatMap Chunk.bytes).length < 2 ^ 32 →
    ∀ f f', G.length - q < f → G.length - (q + (chunks.flatMap Chunk.bytes).length) < f' →
      scan_data e f ⟨G, q, false⟩
        = scan_data e f' ⟨G, q + (chunks.flatMap Chunk.bytes).length, false⟩ := by
  induction chunks with
  | nil =>
    intro q rest _ _ _ f f' hf hf'
    exact scan_data_fuel e G f f' _ hf (by simpa using hf')
  | cons c cs ih =>
    intro q rest hG hch hsmall f f' hf hf'
    obtain ⟨hid4, hidn⟩ := hch c (List.mem_cons_self _ _)
    have hcl := chunk_bytes_length c hid4
    simp only [List.flatMap_cons, List.length_append] at hsmall hf' ⊢
    simp only [List.flatMap_cons, List.append_assoc] at hG
    have hGlen : q + c.bytes.length ≤ G.length := by
      have := congrArg List.length hG
      simp only [List.length_drop, List.length_append] at this
      omega
    have hhead : (G.drop q).take 4 = c.id := by
      rw [hG]
      unfold Chunk.bytes
      simp only [List.append_assoc]
      rw [List.take_left' hid4]
    have hfield : field G (q + 4) 4 = c.payload.length := by
      simp only [field]
      rw [← List.drop_drop, hG]
      unfold Chunk.bytes
      simp only [List.append_assoc]
      rw [List.drop_left' hid4, List.take_left' (le_bytes_length _ _), le_val_le_bytes4]
      omega
    obtain ⟨g, rfl⟩ : ∃ g, f = g + 1 := ⟨f - 1, by omega⟩
    rw [scan_data_succ]
    have hnl : ¬ G.length < q + 8 := by omega
    have hskip : (c.payload.length + c.payload.length % 2) % 2 ^ 32
        = c.payload.length + c.payload.length % 2 := Nat.mod_eq_of_lt (by omega)
    simp only [hnl, if_false, hhead, hidn, hfield, hskip]
    have hq : q + 8 + (c.payload.length + c.payload.length % 2) = q + c.bytes.length := by omega
    rw [hq]
    have := ih (q + c.bytes.length) rest
      (by rw [← List.drop_drop, hG, List.drop_left])
      (fun c' hc' => hch c' (List.mem_cons_of_mem _ hc')) (by omega) g f' (by omega)
      (by omega)
    rw [this, Nat.add_assoc]

/-! ## The file with inserted chunks -/

/-- What `insert_chunks` changes and what it keeps. -/
theorem insert_chunks_facts (F ext : List Nat) (b : Nat) (chunks : List Chunk)
    (h36 : 36 ≤ F.length) (hb : 36 ≤ b) (hbl : b ≤ F.length)
    (hr : field F 4 4 + (ext.length + (chunks.flatMap Chunk.bytes).length) < 2 ^ 32)
    (hf : field F 16 4 + ext.length < 2 ^ 32) :
    (insert_chunks F ext b chunks).length
        = F.length + ext.length + (chunks.flatMap Chunk.bytes).length
    ∧ (insert_chunks F ext b chunks).take 4 = F.take 4
    ∧ ((insert_chunks F ext b chunks).drop 8).take 4 = (F.drop 8).take 4
    ∧ ((insert_chunks F ext b chunks).drop 12).take 4 = (F.drop 12).take 4
    ∧ field (insert_chunks F ext b chunks) 4 4
        = field F 4 4 + (ext.length + (chunks.flatMap Chunk.bytes).length)
    ∧ field (insert_chunks F ext b chunks) 16 4 = field F 16 4 + ext.length
    ∧ (∀ off n, 20 ≤ off → off + n ≤ 36 →
        field (insert_chunks F ext b chunks) off n = field F off n)
    ∧ (∀ pos n, 36 ≤ pos → pos + n ≤ b →
        ((insert_chunks F ext b chunks).drop (pos + ext.length)).take n = (F.drop pos).take n)
    ∧ (insert_chunks F ext b chunks).drop (b + ext.length)
        = chunks.flatMap Chunk.bytes ++ F.drop b := by
  have lA : (F.take 4).length = 4 := by simp; omega
  have lB : ∀ x, (le_bytes 4 x).length = 4 := fun x => le_bytes_length 4 x
  have lC : ((F.drop 8).take 8).length = 8 := by simp; omega
  have lE : ((F.drop 20).take 16).length = 16 := by simp; omega
  have lM : ((F.drop 36).take (b - 36)).length = b - 36 := by simp; omega
  have hins : insert_chunks F ext b chunks
      = F.take 4 ++ le_bytes 4 (field F 4 4 + (ext.length + (chunks.flatMap Chunk.bytes).length))
        ++ (F.drop 8).take 8 ++ le_bytes 4 (field F 16 4 + ext.length) ++ (F.drop 20).take 16
        ++ ext ++ (F.drop 36).take (b - 36) ++ chunks.flatMap Chunk.bytes ++ F.drop b := rfl
  generalize hI : chunks.flatMap Chunk.bytes = I at hr hins
  generalize hA : F.take 4 = A at lA hins
  generalize hB : le_bytes 4 (field F 4 4 + (ext.length + I.length)) = B at hins
  have lB1 : B.length = 4 := by rw [← hB]; exact lB _
  generalize hC : (F.drop 8).take 8 = C at lC hins
  generalize hD : le_bytes 4 (field F 16 4 + ext.length) = D at hins
  have lD : D.length = 4 := by rw [← hD]; exact lB _
  generalize hE : (F.drop 20).take 16 = E at lE hins
  generalize hM : (F.drop 36).take (b - 36) = M at lM hins
  have hG : insert_chunks F ext b chunks
      = A ++ (B ++ (C ++ (D ++ (E ++ (ext ++ (M ++ (I ++ F.drop b))))))) := by
    rw [hins]; simp only [List.append_assoc]
  have d4 : (insert_chunks F ext b chunks).drop 4
      = B ++ (C ++ (D ++ (E ++ (ext ++ (M ++ (I ++ F.drop b)))))) := by
    rw [hG, List.drop_left' lA]
  have d8 : (insert_chunks F ext b chunks).drop 8
      = C ++ (D ++ (E ++ (ext ++ (M ++ (I ++ F.drop b))))) := by
    rw [show 8 = 4 + 4 by rfl, ← List.drop_drop, d4, List.drop_left' lB1]
  have d16 : (insert_chunks F ext b chunks).drop 16
      = D ++ (E ++ (ext ++ (M ++ (I ++ F.drop b)))) := by
    rw [show 16 = 8 + 8 by rfl, ← List.drop_drop, d8, List.drop_left' lC]
  have d20 : (insert_chunks F ext b chunks).drop 20
      = E ++ (ext ++ (M ++ (I ++ F.drop b))) := by
    rw [show 20 = 16 + 4 by rfl, ← List.drop_drop, d16, List.drop_left' lD]
  have d36 : (insert_chunks F ext b chunks).drop 36 = ext ++ (M ++ (I ++ F.drop b)) := by
    rw [show 36 = 20 + 16 by rfl, ← List.drop_drop, d20, List.drop_left' lE]
  have d36k : (insert_chunks F ext b chunks).drop (36 + ext.length) = M ++ (I ++ F.drop b) := by
    rw [← List.drop_drop, d36, List.drop_left]
  refine ⟨?_, ?_, ?_, ?_, ?_, ?_, ?_, ?_, ?_⟩
  · rw [hG]
    simp only [List.length_append, lA, lB1, lC, lD, lE, lM, List.length_drop]
    omega
  · rw [hG, List.take_left' lA]
  · rw [d8, List.take_append_of_le_length (by omega), ← hC, List.take_take]; rfl
  · rw [show 12 = 8 + 4 by rfl, ← List.drop_drop, d8,
      List.drop_append_of_le_length (by omega),
      List.take_append_of_le_length (by rw [List.length_drop]; omega), ← hC,
      slice_take _ 8 4 4 (by omega), List.drop_drop]
  · show le_val (((insert_chunks F ext b chunks).drop 4).take 4) = _
    rw [d4, List.take_left' lB1, ← hB, le_val_le_bytes4 _ hr]
  · show le_val (((insert_chunks F ext b chunks).drop 16).take 4) = _
    rw [d16, List.take_left' lD, ← hD, le_val_le_bytes4 _ hf]
  · intro off n h20 hn
    simp only [field]
    rw [show off = 20 + (off - 20) by omega, ← List.drop_drop, d20, ← List.drop_drop,
      slice_append_left _ _ _ _ (by omega), ← hE, slice_take _ 16 _ _ (by omega)]
  · intro pos n hp hn
    rw [show pos + ext.length = 36 + ext.length + (pos - 36) by omega, ← List.drop_drop, d36k,
      slice_append_left _ _ _ _ (by omega), ← hM, slice_take _ _ _ _ (by omega),
      List.drop_drop]
    congr 2; omega
  · rw [show b + ext.length = 36 + ext.length + (b - 36) by omega, ← List.drop_drop, d36k,
      List.drop_left' lM]

/-! ## Packing the encoder input -/

theorem resize_length (v : List Nat) (n : Nat) : (resize v n).length = n := by
  simp [resize]; omega

theorem resize_getD (v : List Nat) (n i : Nat) :
    (resize v n).getD i 0 = if i < n then v.getD i 0 else 0 := by
  simp only [resize, List.getD_eq_getElem?_getD]
  by_cases h1 : i < v.length
  · by_cases h2 : i < n
    · rw [List.getElem?_append_left (by simp; omega), List.getElem?_take_of_lt h2]
      simp [h2]
    · rw [List.getElem?_eq_none (by simp; omega)]
      simp [h2]
  · have hv : v[i]? = none := List.getElem?_eq_none (by omega)
    rw [hv]
    by_cases h2 : i < n
    · rw [List.getElem?_append_right (by simp; omega), List.getElem?_replicate]
      split <;> simp
    · rw [List.getElem?_eq_none (by simp; omega)]
      simp

/-- The packing loop after `k` of its `T` iterations. -/
theorem foldl_pack (L R : Nat → Nat) (T k : Nat) (packed : List Nat) (hk : k ≤ T)
    (hlen : 2 * T ≤ packed.length) :
    ∀ j, ((List.range k).foldl (fun p i => (p.set i (L i)).set (T + i) (R i)) packed).getD j 0
      = if j < k then L j else if T ≤ j ∧ j < T + k then R (j - T) else packed.getD j 0 := by
  induction k with
  | zero =>
    intro j
    have h0 : ¬ (T ≤ j ∧ j < T + 0) := by omega
    rw [List.range_zero, List.foldl_nil, if_neg (by omega), if_neg h0]
  | succ k ih =>
    intro j
    have hl := foldl_length (fun p i => (p.set i (L i)).set (T + i) (R i))
      (fun a i => by simp) (List.range k) packed
    rw [List.range_succ, List.foldl_append]
    simp only [List.foldl_cons, List.foldl_nil]
    rw [getD_set, getD_set, List.length_set, hl, ih (by omega) j]
    by_cases h1 : T + k = j
    · have c1 : T + k = j ∧ T + k < packed.length := ⟨h1, by omega⟩
      have c2 : ¬ j < k + 1 := by omega
      have c3 : T ≤ j ∧ j < T + (k + 1) := by omega
      have c4 : j - T = k := by omega
      rw [if_pos c1, if_neg c2, if_pos c3, c4]
    · have c1 : ¬ (T + k = j ∧ T + k < packed.length) := fun h => h1 h.1
      rw [if_neg c1]
      by_cases h2 : k = j
      · have c2 : k = j ∧ k < packed.length := ⟨h2, by omega⟩
        have c3 : j < k + 1 := by omega
        rw [if_pos c2, if_pos c3, h2]
      · have c2 : ¬ (k = j ∧ k < packed.length) := fun h => h2 h.1
        rw [if_neg c2]
        by_cases h3 : j < k
        · have c3 : j < k + 1 := by omega
          rw [if_pos h3, if_pos c3]
        · have c3 : ¬ j < k + 1 := by omega
          rw [if_neg h3, if_neg c3]
          by_cases h4 : T ≤ j ∧ j < T + k
          · have c4 : T ≤ j ∧ j < T + (k + 1) := by omega
            rw [if_pos h4, if_pos c4]
          · have c4 : ¬ (T ≤ j ∧ j < T + (k + 1)) := by omega
            rw [if_neg h4, if_neg c4]

/-! ## The values of the schedule -/

/-- The linspace loop `arr[i] = arr[i - 1] + step` after `m` iterations. -/
theorem foldl_linspace {α : Type} [Field α] (step : α) (m : Nat) (arr : List α)
    (hm : m < arr.length) :
    ∀ j, ((List.range m).foldl (fun a k => a.set (k + 1) (a.getD k 0 + step)) arr).getD j 0
      = if j ≤ m then arr.getD 0 0 + (j : α) * step else arr.getD j 0 := by
  induction m with
  | zero =>
    intro j
    by_cases hj : j ≤ 0
    · have : j = 0 := by omega
      subst this
      simp
    · rw [if_neg hj]; rfl
  | succ m ih =>
    intro j
    have hl := foldl_length (fun a k => a.set (k + 1) (a.getD k 0 + step))
      (fun a i => List.length_set _ _ _) (List.range m) arr
    rw [List.range_succ, List.foldl_append]
    simp only [List.foldl_cons, List.foldl_nil]
    rw [getD_set, hl, ih (by omega) m, ih (by omega) j, if_pos (Nat.le_refl m)]
    by_cases h1 : m + 1 = j
    · have c1 : m + 1 = j ∧ m + 1 < arr.length := ⟨h1, hm⟩
      have c2 : j ≤ m + 1 := by omega
      rw [if_pos c1, if_pos c2, ← h1]
      push_cast
      ring
    · have c1 : ¬ (m + 1 = j ∧ m + 1 < arr.length) := fun h => h1 h.1
      rw [if_neg c1]
      by_cases h2 : j ≤ m
      · have c2 : j ≤ m + 1 := by omega
        rw [if_pos h2, if_pos c2]
      · have c2 : ¬ j ≤ m + 1 := by omega
        rw [if_neg h2, if_neg c2]

/-- The values `fill_sigmas` leaves in a buffer of `n` elements, `2 ≤ n < 2^31`:
`sigma_max` first, 0 last, and the logistic transform of the linspace points
in between. -/
theorem fill_sigmas_values {α : Type} [Field α] (exp : α → α) (arr : List α)
    (start end_ sigma_max : α) (h2 : 2 ≤ arr.length) (hmax : arr.length < 2 ^ 31) :
    ∃ out, fill_sigmas exp arr start end_ sigma_max = some out ∧ out.length = arr.length
      ∧ out.getD 0 0 = sigma_max ∧ out.getD (arr.length - 1) 0 = 0
      ∧ ∀ j, 1 ≤ j → j < arr.length - 1 →
          out.getD j 0
            = 1 / (1 + exp (start + (j : α) * ((end_ - start) / ((arr.length : α) - 1)))) := by
  have hsz : ¬ ((arr.length : Int) ≤ 0) := by omega
  simp only [fill_sigmas, to_int32_small _ hmax, hsz, if_false, Int.toNat_ofNat]
  have hl0 : ((arr.set 0 start).set (arr.length - 1) end_).length = arr.length := by simp
  have hl1 := foldl_length
    (fun a k => a.set (k + 1) (a.getD k 0 + (end_ - start) / (((arr.length : Int) - 1 : Int) : α)))
    (fun a i => List.length_set _ _ _) (List.range (arr.length - 2))
    ((arr.set 0 start).set (arr.length - 1) end_)
  have hl2 := foldl_length (fun a i => a.set i (1 / (1 + exp (a.getD i 0))))
    (fun a i => List.length_set _ _ _) (List.range arr.length)
    ((List.range (arr.length - 2)).foldl
      (fun a k => a.set (k + 1) (a.getD k 0 + (end_ - start) / (((arr.length : Int) - 1 : Int) : α)))
      ((arr.set 0 start).set (arr.length - 1) end_))
  rw [hl1, hl0] at hl2
  refine ⟨_, rfl, ?_, ?_, ?_, ?_⟩
  · simp only [List.length_set]; exact hl2
  · rw [getD_set, getD_set, hl2, if_neg (fun h => by omega), if_pos ⟨rfl, by omega⟩]
  · rw [getD_set, List.length_set, hl2, if_pos ⟨rfl, by omega⟩]; rfl
  · intro j hj1 hj2
    have hsig := foldl_set_getD (0 : α) (fun _ v => 1 / (1 + exp v)) arr.length
      ((List.range (arr.length - 2)).foldl
        (fun a k => a.set (k + 1)
          (a.getD k 0 + (end_ - start) / (((arr.length : Int) - 1 : Int) : α)))
        ((arr.set 0 start).set (arr.length - 1) end_)) j
    have hlin := foldl_linspace ((end_ - start) / (((arr.length : Int) - 1 : Int) : α))
      (arr.length - 2) ((arr.set 0 start).set (arr.length - 1) end_) (by rw [hl0]; omega) j
    simp only [] at hsig
    have c1 : j < arr.length ∧ j < arr.length := by omega
    have c2 : j ≤ arr.length - 2 := by omega
    rw [hl1, hl0, if_pos c1, hlin, if_pos c2] at hsig
    have h0 : ((arr.set 0 start).set (arr.length - 1) end_).getD 0 0 = start := by
      rw [getD_set, getD_set, if_neg (fun h => by omega), if_pos ⟨rfl, by omega⟩]
    rw [h0] at hsig
    rw [getD_set, getD_set, if_neg (fun h => by omega), if_neg (fun h => by omega), hsig]
    push_cast
    rfl

/-! ## Monotonicity of the schedule -/

/-- When the linspace runs upwards (`start ≤ end_`) and `sigma_max` is at
least the logistic transform of `start`, the schedule never increases. -/
theorem fill_sigmas_antitone (arr : List ℝ) (start end_ sigma_max : ℝ)
    (h2 : 2 ≤ arr.length) (hmax : arr.length < 2 ^ 31) (hse : start ≤ end_)
    (hs : 1 / (1 + Real.exp start) ≤ sigma_max) :
    ∃ out, fill_sigmas Real.exp arr start end_ sigma_max = some out
      ∧ out.length = arr.length
      ∧ ∀ i, i + 1 < arr.length → out.getD (i + 1) 0 ≤ out.getD i 0 := by
  obtain ⟨out, hout, hlen, hfirst, hlast, hmid⟩ :=
    fill_sigmas_values Real.exp arr start end_ sigma_max h2 hmax
  refine ⟨out, hout, hlen, ?_⟩
  have hL : (2 : ℝ) ≤ (arr.length : ℝ) := by exact_mod_cast h2
  have hstep : 0 ≤ (end_ - start) / ((arr.length : ℝ) - 1) :=
    div_nonneg (by linarith) (by linarith)
  have hpos : ∀ v : ℝ, 0 < 1 / (1 + Real.exp v) := fun v =>
    one_div_pos.mpr (by have := Real.exp_pos v; linarith)
  have hanti : ∀ u v : ℝ, u ≤ v → 1 / (1 + Real.exp v) ≤ 1 / (1 + Real.exp u) := by
    intro u v huv
    apply one_div_le_one_div_of_le
    · have := Real.exp_pos u; linarith
    · have := Real.exp_le_exp.mpr huv; linarith
  have hs0 : 0 ≤ sigma_max := le_trans (le_of_lt (hpos start)) hs
  intro i hi
  by_cases hend : i + 1 = arr.length - 1
  · rw [hend, hlast]
    by_cases hi0 : i = 0
    · rw [hi0, hfirst]; exact hs0
    · rw [hmid i (by omega) (by omega)]
      exact le_of_lt (hpos _)
  · rw [hmid (i + 1) (by omega) (by omega)]
    by_cases hi0 : i = 0
    · rw [hi0, hfirst]
      refine le_trans (hanti start _ ?_) hs
      have : (0 : ℝ) ≤ ((0 + 1 : ℕ) : ℝ) * ((end_ - start) / ((arr.length : ℝ) - 1)) :=
        mul_nonneg (by positivity) hstep
      linarith
    · rw [hmid i (by omega) (by omega)]
      apply hanti
      push_cast
      nlinarith

/-- For an encoder input of `2^32` elements the `int32_t` frame count is
negative and nothing is packed. -/
theorem prepare_encoder_input_int32 (left_ch right_ch packed : List Nat)
    (h : left_ch.length = right_ch.length) :
    prepare_encoder_input left_ch right_ch packed (2 ^ 32) = .ok packed := by
  have hneg : to_int32 (2 ^ 32 / 2) = -2147483648 := by
    simp [to_int32]
  have hpos : ¬ ((0 : Int) < -2147483648 ∧ (left_ch.length < (-2147483648 : Int).toNat
      ∨ right_ch.length < (-2147483648 : Int).toNat
      ∨ packed.length < 2 * (-2147483648 : Int).toNat
      ∨ 2 ^ 30 < (-2147483648 : Int).toNat)) := fun hc => absurd hc.1 (by decide)
  have hne : ¬ (left_ch.length ≠ right_ch.length) := fun hc => hc h
  simp only [prepare_encoder_input, hne, if_false, hneg, hpos]
  rfl

/-! ## The initial latent -/

theorem set_getD_self {α : Type} (d : α) (x : List α) (k : Nat) : x.set k (x.getD k d) = x := by
  by_cases hk : k < x.length
  · apply List.ext_getElem?
    intro n
    rw [List.getElem?_set, List.getD_eq_getElem?_getD, List.getElem?_eq_getElem hk,
      Option.getD_some]
    by_cases hkn : k = n
    · subst hkn
      rw [if_pos rfl, if_pos hk, List.getElem?_eq_getElem hk]
    · rw [if_neg hkn]
  · exact List.set_eq_of_length_le (by omega)

/-- With `sigma_max = 1` the blend loop leaves the latent as it is, as long as
it stays inside `encoded_audio`. -/
theorem blend_one_fold (encoded_audio x : List ℝ) (k : Nat) (hk : k ≤ encoded_audio.length) :
    (List.range k).foldl (main_blend_step encoded_audio 1) (.ok x) = .ok x := by
  induction k with
  | zero => rfl
  | succ k ih =>
    rw [List.range_succ, List.foldl_append, ih (by omega)]
    simp only [List.foldl_cons, List.foldl_nil, main_blend_step]
    rw [List.getElem?_eq_getElem (by omega)]
    simp only [sub_self, mul_zero, zero_add, mul_one]
    rw [set_getD_self]

/-- Element `k` of the random tensor is the `k`-th draw of the generator seeded
with the low 32 bits of the seed. -/
theorem fill_random_norm_dist_getD (normal_draw : Nat → Nat → ℝ) (buff : List ℝ)
    (n seed k : Nat) (hk : k < n) (hn : n ≤ buff.length) :
    (fill_random_norm_dist normal_draw buff n seed).getD k 0 = normal_draw (seed % 2 ^ 32) k := by
  have h := foldl_set_getD (0 : ℝ) (fun i _ => normal_draw (seed % 2 ^ 32) i) n buff k
  simp only [] at h
  have c : k < n ∧ k < buff.length := ⟨hk, by omega⟩
  rw [if_pos c] at h
  exact h

/-- Once the blend loop has met undefined behaviour it stays there. -/
theorem blend_fold_error {α : Type} [Field α] (encoded_audio : List α) (sigma_max : α)
    (e : WavError) (l : List Nat) :
    l.foldl (main_blend_step encoded_audio sigma_max) (.error e) = .error e := by
  induction l with
  | nil => rfl
  | cons i l ih => simpa [List.foldl_cons, main_blend_step] using ih

/-- Inside `encoded_audio` the blend loop goes on. -/
theorem blend_fold_ok {α : Type} [Field α] (encoded_audio : List α) (sigma_max : α)
    (k : Nat) (hk : k ≤ encoded_audio.length) (x : List α) :
    ∃ x', (List.range k).foldl (main_blend_step encoded_audio sigma_max) (.ok x) = .ok x' := by
  induction k with
  | zero => exact ⟨x, rfl⟩
  | succ k ih =>
    obtain ⟨x', hx'⟩ := ih (by omega)
    rw [List.range_succ, List.foldl_append, hx']
    simp only [List.foldl_cons, List.foldl_nil, main_blend_step]
    rw [List.getElem?_eq_getElem (by omega)]
    exact ⟨_, rfl⟩

/-- A style tensor with fewer elements than the latent (of fewer than `2^31`
elements) makes the blend loop read beyond it. -/
theorem main_initial_latent_short_style {α : Type} [Field α] (normal_draw : Nat → Nat → α)
    (dit_x_in_data : List α) (seed : Nat) (encoded_audio : List α) (sigma_max : α)
    (hm : encoded_audio.length < dit_x_in_data.length) (hn : dit_x_in_data.length < 2 ^ 31) :
    main_initial_latent normal_draw dit_x_in_data seed false encoded_audio sigma_max
      = .error .undefined := by
  simp only [main_initial_latent, Bool.false_eq_true, if_false]
  have hmin : min dit_x_in_data.length (2 ^ 31)
      = encoded_audio.length + (1 + (dit_x_in_data.length - encoded_audio.length - 1)) := by
    rw [Nat.min_eq_left (by omega)]; omega
  obtain ⟨x', hx'⟩ := blend_fold_ok encoded_audio sigma_max encoded_audio.length
    (Nat.le_refl _) (fill_random_norm_dist normal_draw dit_x_in_data dit_x_in_data.length seed)
  rw [hmin, List.range_add, List.foldl_append, hx', List.range_add, List.map_append,
    List.foldl_append]
  have hstep : (List.map (fun x => encoded_audio.length + x) (List.range 1)).foldl
      (main_blend_step encoded_audio sigma_max) (.ok x') = .error .undefined := by
    rw [show List.range 1 = [0] from rfl]
    simp only [List.map_cons, List.map_nil, List.foldl_cons, List.foldl_nil, main_blend_step,
      Nat.add_zero]
    rw [List.getElem?_eq_none (Nat.le_refl _)]
  rw [hstep, blend_fold_error]

/-! ## The sampler inside the denoising loop -/

/-- The latent after `sampler_ping_pong`, element by element. -/
theorem sampler_ping_pong_latent (normal_draw : Nat → Nat → ℝ) (x y : List ℝ)
    (hy : y.length = x.length) (c t : ℝ) (step_idx seed k : Nat) (hk : k < x.length) :
    (sampler_ping_pong normal_draw y x x.length c t step_idx seed).2.getD k 0
      = (1 - t) * (x.getD k 0 - c * y.getD k 0) + t * normal_draw (seed % 2 ^ 32) k := by
  simp only [sampler_ping_pong]
  have h2 := foldl_set_getD (0 : ℝ) (fun i _ =>
    (1 - t) * ((List.range x.length).foldl
        (fun out i => out.set i (x.getD i 0 - c * out.getD i 0)) y).getD i 0
      + t * (fill_random_norm_dist normal_draw (List.replicate x.length 0) x.length seed).getD
          i 0) x.length x k
  have h1 := foldl_set_getD (0 : ℝ) (fun i v => x.getD i 0 - c * v) x.length y k
  simp only [hy, hk, and_self, if_true] at h1 h2
  rw [h2, h1, fill_random_norm_dist_getD normal_draw _ x.length seed k hk (by simp)]

/-! ## Termination of the decoder -/

theorem read_frames_ne_out_of_fuel (s : IStream) (d ba : Nat) :
    read_frames s d ba ≠ .error .out_of_fuel := by
  simp only [read_frames]
  split_ifs <;> simp

/-! ## The claims -/

/-- C1. WAV round trip: for channels `left_ch`, `right_ch` of equal length `n`
with `44 + 8 * n < 2^31` whose samples are 32-bit patterns, `read_wav` on the
bytes written by `save_as_wav left_ch right_ch n` succeeds and returns exactly
`left_ch` and `right_ch`. -/
theorem read_wav_save_as_wav (junk : Nat → Nat) (left_ch right_ch : List Nat) (n : Nat)
    (hl : left_ch.length = n) (hr : right_ch.length = n) (hsz : 44 + 8 * n < 2 ^ 31)
    (hbl : ∀ x ∈ left_ch, x < 2 ^ 32) (hbr : ∀ x ∈ right_ch, x < 2 ^ 32) :
    read_wav junk (save_as_wav left_ch right_ch n) = .ok (left_ch, right_ch) := by
  have hblock : ∀ j, j < n →
      (le_bytes 4 (left_ch.getD j 0) ++ le_bytes 4 (right_ch.getD j 0)).length = 8 := by
    intro j _; simp [le_bytes_length]
  rw [save_as_wav_eq _ _ _ hsz,
    read_wav_canonical junk n _ hsz (flatMap_range_length _ 8 n hblock)]
  have hleft : ∀ i, i < n → f32_at ((List.range n).flatMap
      (fun i => le_bytes 4 (left_ch.getD i 0) ++ le_bytes 4 (right_ch.getD i 0))) (2 * i)
        = left_ch.getD i 0 := by
    intro i hi
    rw [f32_at_even, flatMap_range_block _ 8 n i hblock hi,
      List.take_append_of_le_length (by simp [le_bytes_length]),
      List.take_of_length_le (by simp [le_bytes_length])]
    apply le_val_le_bytes4
    have hi' : i < left_ch.length := by omega
    rw [List.getD_eq_getElem?_getD, List.getElem?_eq_getElem hi']
    exact hbl _ (List.getElem_mem _)
  have hright : ∀ i, i < n → f32_at ((List.range n).flatMap
      (fun i => le_bytes 4 (left_ch.getD i 0) ++ le_bytes 4 (right_ch.getD i 0))) (2 * i + 1)
        = right_ch.getD i 0 := by
    intro i hi
    rw [f32_at_odd, flatMap_range_block _ 8 n i hblock hi,
      List.drop_append_of_le_length (by simp [le_bytes_length]),
      List.drop_of_length_le (by simp [le_bytes_length]), List.nil_append]
    apply le_val_le_bytes4
    have hi' : i < right_ch.length := by omega
    rw [List.getD_eq_getElem?_getD, List.getElem?_eq_getElem hi']
    exact hbr _ (List.getElem_mem _)
  have e1 : (List.range n).map (fun i => f32_at ((List.range n).flatMap
      (fun i => le_bytes 4 (left_ch.getD i 0) ++ le_bytes 4 (right_ch.getD i 0))) (2 * i))
        = (List.range n).map (fun i => left_ch.getD i 0) :=
    List.map_congr_left (fun i hi => hleft i (List.mem_range.mp hi))
  have e2 : (List.range n).map (fun i => f32_at ((List.range n).flatMap
      (fun i => le_bytes 4 (left_ch.getD i 0) ++ le_bytes 4 (right_ch.getD i 0))) (2 * i + 1))
        = (List.range n).map (fun i => right_ch.getD i 0) :=
    List.map_congr_left (fun i hi => hright i (List.mem_range.mp hi))
  rw [e1, e2, map_getD_range _ _ hl, map_getD_range _ _ hr]

/-- Witness of C1 on the two-frame channels `[1, 2^32 - 1]` and `[3, 4]`. -/
theorem read_wav_save_as_wav_witness :
    read_wav (fun _ => 0) (save_as_wav [1, 4294967295] [3, 4] 2)
      = .ok ([1, 4294967295], [3, 4]) :=
  read_wav_save_as_wav (fun _ => 0) [1, 4294967295] [3, 4] 2 rfl rfl (by decide)
    (by decide) (by decide)

/-- C2. Ping-pong sampler update: for a latent `x` and a model output `y` of
length `n`, after `sampler_ping_pong` the latent has length `n` and its element
`i` is `(1 - t) * (x[i] - c * y[i]) + t * r[i]`, where `r` is the tensor of
length `n` that `fill_random_norm_dist` generates from the seed (over the
reals). -/
theorem sampler_ping_pong_update (normal_draw : Nat → Nat → ℝ) (x y : List ℝ) (n : Nat)
    (hx : x.length = n) (hy : y.length = n) (c t : ℝ) (step_idx seed : Nat) :
    (sampler_ping_pong normal_draw y x n c t step_idx seed).2.length = n
    ∧ (fill_random_norm_dist normal_draw (List.replicate n 0) n seed).length = n
    ∧ ∀ i, i < n →
        (sampler_ping_pong normal_draw y x n c t step_idx seed).2.getD i 0
          = (1 - t) * (x.getD i 0 - c * y.getD i 0)
            + t * (fill_random_norm_dist normal_draw (List.replicate n 0) n seed).getD i 0 := by
  refine ⟨?_, ?_, ?_⟩
  · simp only [sampler_ping_pong]
    rw [foldl_length _ (fun a i => List.length_set _ _ _)]; exact hx
  · simp only [fill_random_norm_dist]
    rw [foldl_length _ (fun a i => List.length_set _ _ _)]; simp
  · intro i hi
    simp only [sampler_ping_pong]
    have h2 := foldl_set_getD (0 : ℝ) (fun i _ =>
      (1 - t) * ((List.range n).foldl
          (fun out i => out.set i (x.getD i 0 - c * out.getD i 0)) y).getD i 0
        + t * (fill_random_norm_dist normal_draw (List.replicate n 0) n seed).getD i 0) n x i
    have h1 := foldl_set_getD (0 : ℝ) (fun i v => x.getD i 0 - c * v) n y i
    simp only [hx, hy, hi, and_self, if_true] at h1 h2
    rw [h2, h1]

/-- Witness of C2 on a latent and a model output of two elements. -/
theorem sampler_ping_pong_update_witness :
    (sampler_ping_pong (fun _ i => (i : ℝ)) [3, 4] [1, 2] 2 (1 / 2) (1 / 4) 0 99).2.length = 2
    ∧ (fill_random_norm_dist (fun _ i => (i : ℝ)) (List.replicate 2 0) 2 99).length = 2
    ∧ ∀ i, i < 2 →
        (sampler_ping_pong (fun _ i => (i : ℝ)) [3, 4] [1, 2] 2 (1 / 2) (1 / 4) 0 99).2.getD i 0
          = (1 - 1 / 4) * (([1, 2] : List ℝ).getD i 0 - 1 / 2 * ([3, 4] : List ℝ).getD i 0)
            + 1 / 4 * (fill_random_norm_dist (fun _ i => (i : ℝ))
                (List.replicate 2 0) 2 99).getD i 0 :=
  sampler_ping_pong_update (fun _ i => (i : ℝ)) [1, 2] [3, 4] 2 rfl rfl (1 / 2) (1 / 4) 0 99

/-- C3 as stated fails at `numSteps = 0`: with `sigmaMax = 1` the schedule is
the one-element buffer `[0]`, whose first element is not `sigmaMax`. -/
theorem main_sigmas_zero_steps :
    main_sigmas Real.exp Real.log 1 0 = some [0]
      ∧ ¬ ∃ arr, main_sigmas Real.exp Real.log 1 0 = some arr ∧ arr[0]? = some 1 := by
  have h : main_sigmas Real.exp Real.log 1 0 = some [0] := by
    simp [main_sigmas, fill_sigmas, to_int32, k_sigma_min, List.range_succ]
  refine ⟨h, ?_⟩
  rintro ⟨arr, harr, h0⟩
  rw [h] at harr
  cases harr
  simp at h0

/-- C3, amended. Schedule boundary: for every `sigmaMax` (in particular every
one in (0, 1]) and every step count with `1 ≤ numSteps` and
`numSteps + 1 < 2^31`, the schedule the orchestrator builds has exactly
`numSteps + 1` elements, its first element is `sigmaMax` and its last element
is 0. -/
theorem main_sigmas_boundary (sigma_max : ℝ) (num_steps : Nat) (hn : 1 ≤ num_steps)
    (hmax : num_steps + 1 < 2 ^ 31) :
    ∃ arr, main_sigmas Real.exp Real.log sigma_max num_steps = some arr
      ∧ arr.length = num_steps + 1 ∧ arr[0]? = some sigma_max
      ∧ arr[num_steps]? = some 0 := by
  have hN : (num_steps + 1) % 2 ^ 64 = num_steps + 1 := Nat.mod_eq_of_lt (by omega)
  obtain ⟨out, h1, h2, h3, h4⟩ := fill_sigmas_boundary Real.exp
    (List.replicate (num_steps + 1) (0 : ℝ))
    (if sigma_max < 1 then Real.log ((1 - sigma_max) / sigma_max + 1 / 1000000)
      else k_logsnr_max) 2 sigma_max
    (by simp; omega) (by simpa using hmax)
  refine ⟨out, ?_, ?_, h3, ?_⟩
  · simp only [main_sigmas, hN]; exact h1
  · simpa using h2
  · simpa using h4

/-- Witness of C3 amended at the default of 8 steps and `sigmaMax = 1`. -/
theorem main_sigmas_boundary_witness :
    ∃ arr, main_sigmas Real.exp Real.log 1 8 = some arr
      ∧ arr.length = 8 + 1 ∧ arr[0]? = some 1 ∧ arr[8]? = some 0 :=
  main_sigmas_boundary 1 8 (by decide) (by decide)

/-- C4. Format rejection: a file whose format-description chunk (present in
the file: at least 36 bytes) declares a sample rate other than 44100, a channel
count other than 2 or a bits-per-sample value other than 32 makes `read_wav`
end with an error and no channels, whatever the rest of the file holds. -/
theorem read_wav_rejects_format (junk : Nat → Nat) (F : List Nat) (hlen : 36 ≤ F.length)
    (h : field F 24 4 ≠ 44100 ∨ field F 22 2 ≠ 2 ∨ field F 34 2 ≠ 32) :
    rejected (read_wav junk F) = true := by
  rw [read_wav_long junk F hlen]
  split_ifs with h1 h2 h3 h4 h5
  · rfl
  · rfl
  · rfl
  · rfl
  · rfl
  · exfalso
    apply h5
    rcases h with h | h | h
    · exact Or.inr (Or.inr (Or.inl h))
    · exact Or.inr (Or.inl h)
    · exact Or.inr (Or.inr (Or.inr h))

/-- Witness of C4: the 48 kHz variant of an encoder output is rejected. -/
theorem read_wav_rejects_format_witness :
    wav_48k = ((save_as_wav [1] [2] 1).set 24 128).set 25 187
      ∧ 36 ≤ wav_48k.length ∧ field wav_48k 24 4 = 48000
      ∧ rejected (read_wav (fun _ => 0) wav_48k) = true :=
  ⟨by decide, by decide, by decide,
    read_wav_rejects_format (fun _ => 0) wav_48k (by decide) (Or.inl (by decide))⟩

/-- C5 as stated fails: the file `wav_pcm_tag` carries the format tag 1, not 3,
with the channel count, sample rate and bit depth of the constants, and
`read_wav` accepts it, returning the frame `(1, 2)`. -/
theorem read_wav_accepts_pcm_tag :
    wav_pcm_tag = (save_as_wav [1] [2] 1).set 20 1
      ∧ field wav_pcm_tag 20 2 ≠ 3 ∧ field wav_pcm_tag 22 2 = 2
      ∧ field wav_pcm_tag 24 4 = 44100 ∧ field wav_pcm_tag 34 2 = 32
      ∧ read_wav (fun _ => 0) wav_pcm_tag = .ok ([1], [2])
      ∧ rejected (read_wav (fun _ => 0) wav_pcm_tag) = false :=
  ⟨by decide, by decide, by decide, by decide, by decide, by decide, by decide⟩

/-- C5, amended. Format-tag rejection: a file whose format-description chunk
(present in the file) carries an audio format tag other than 1 (PCM), 3 (IEEE
float) and 0xFFFE (extensible) makes `read_wav` end with an error and no
channels, also when channel count, sample rate and bit depth match the
constants. -/
theorem read_wav_rejects_format_tag (junk : Nat → Nat) (F : List Nat) (hlen : 36 ≤ F.length)
    (h : field F 20 2 ≠ 3 ∧ field F 20 2 ≠ 1 ∧ field F 20 2 ≠ 0xFFFE) :
    rejected (read_wav junk F) = true := by
  rw [read_wav_long junk F hlen]
  split_ifs with h1 h2 h3 h4 h5
  · rfl
  · rfl
  · rfl
  · rfl
  · rfl
  · exfalso
    apply h5
    left
    rintro (h3 | h1 | hE)
    · exact h.1 h3
    · exact h.2.1 h1
    · exact h.2.2 hE

/-- Witness of C5 amended: the format tag 2, with all other fields as the
encoder writes them, is rejected. -/
theorem read_wav_rejects_format_tag_witness :
    wav_tag_2 = (save_as_wav [1] [2] 1).set 20 2
      ∧ field wav_tag_2 20 2 = 2 ∧ field wav_tag_2 22 2 = 2 ∧ field wav_tag_2 24 4 = 44100
      ∧ field wav_tag_2 34 2 = 32 ∧ rejected (read_wav (fun _ => 0) wav_tag_2) = true :=
  ⟨by decide, by decide, by decide, by decide, by decide,
    read_wav_rejects_format_tag (fun _ => 0) wav_tag_2 (by decide)
      ⟨by decide, by decide, by decide⟩⟩

/-- C6. Data-size bound: when the chunk walk from the end of the format chunk
reaches a data chunk whose payload starts at offset `p` with declared size
`d`, and `p + d` exceeds `8 + riffSize` (the declared total size at offset 4),
`read_wav` ends with an error and no channels. -/
theorem read_wav_rejects_data_past_riff (junk : Nat → Nat) (F : List Nat) (p d : Nat)
    (hlen : 36 ≤ F.length)
    (hpath : DataChunkAt F (36 + (field F 16 4 - 16)) p)
    (hd : field F (p - 4) 4 = d)
    (hbig : 8 + field F 4 4 < p + d) :
    rejected (read_wav junk F) = true := by
  rw [read_wav_long junk F hlen]
  split_ifs with h1 h2 h3 h4 h5
  · rfl
  · rfl
  · rfl
  · rfl
  · rfl
  · rw [scan_data_path _ F _ p hpath (F.length + 1) (by omega), hd]
    have : ¬ (p + d ≤ 8 + field F 4 4) := by omega
    simp only [this, if_false]
    rfl

/-- Witness of C6: the data chunk of `wav_small_riff` starts at 44 with size 8
and the declared container ends at 44. -/
theorem read_wav_rejects_data_past_riff_witness :
    wav_small_riff = (save_as_wav [1] [2] 1).set 4 36
      ∧ DataChunkAt wav_small_riff 36 44 ∧ field wav_small_riff 40 4 = 8
      ∧ field wav_small_riff 4 4 = 36 ∧ rejected (read_wav (fun _ => 0) wav_small_riff) = true :=
  ⟨by decide, DataChunkAt.here 36 (by decide) (by decide), by decide, by decide,
    read_wav_rejects_data_past_riff (fun _ => 0) wav_small_riff 44 8 (by decide)
      (DataChunkAt.here 36 (by decide) (by decide)) (by decide) (by decide)⟩

/-- C7 fails on the code: `wav_block_align_4` declares a data size of 8 and a
block-align of 4; `read_wav` accepts it and returns two frames per channel,
the second one zero, where the claim has `8 / 8 = 1` frame. -/
theorem read_wav_block_align_4 :
    wav_block_align_4 = (save_as_wav [1] [2] 1).set 32 4
      ∧ field wav_block_align_4 40 4 = 8 ∧ field wav_block_align_4 32 2 = 4
      ∧ read_wav (fun _ => 0) wav_block_align_4 = .ok ([1, 0], [2, 0]) :=
  ⟨by decide, by decide, by decide, by decide⟩

/-- C8. Chunk skipping: let `read_wav` accept `F`, and let `insert_chunks F ext b chunks`
be `F` with `ext.length` more declared format-chunk bytes (the bytes `ext`
placed after the 16 standard format bytes), with the chunks `chunks`, whose
4-byte ids are not `data`, inserted at a chunk boundary `b` between the format
chunk and the data chunk, and with the total-size field raised by the number
of inserted bytes (both fields still fitting 32 bits).  Then `read_wav`
accepts the new file and returns the same channels. -/
theorem read_wav_insert_chunks (junk : Nat → Nat) (F ext : List Nat) (b : Nat)
    (chunks : List Chunk) (left_ch right_ch : List Nat)
    (hacc : read_wav junk F = .ok (left_ch, right_ch))
    (hwalk : ChunkWalk F (36 + (field F 16 4 - 16)) b)
    (hch : ∀ c ∈ chunks, c.id.length = 4 ∧ c.id ≠ tag_data)
    (hfmt : field F 16 4 + ext.length < 2 ^ 32)
    (hriff : field F 4 4 + (ext.length + (chunks.flatMap Chunk.bytes).length) < 2 ^ 32) :
    read_wav junk (insert_chunks F ext b chunks) = .ok (left_ch, right_ch) := by
  have h36 := read_wav_ok_length junk F _ hacc
  rw [read_wav_long junk F h36] at hacc
  split_ifs at hacc with c1 c2 c3 c4 c5
  cases hscan : scan_data (8 + field F 4 4) (F.length + 1)
      ⟨F, 36 + (field F 16 4 - 16), false⟩ with
  | error err => rw [hscan] at hacc; cases hacc
  | ok x =>
    obtain ⟨d, s⟩ := x
    rw [hscan] at hacc
    simp only at hacc
    have hwF := scan_data_walk F F (8 + field F 4 4) 0 _ b hwalk (fun _ _ _ _ => rfl)
      (F.length + 1) (F.length + 1) (by omega) (by omega)
    simp only [Nat.add_zero] at hwF
    rw [hwF] at hscan
    obtain ⟨hs, hb8, hsl, -, -, -⟩ := scan_data_ok_stream _ _ _ _ _ _ hscan
    have hab := chunkWalk_le F _ _ hwalk
    obtain ⟨gl, g0, g8, g12, g4, g16, gfld, gag, gdrop⟩ :=
      insert_chunks_facts F ext b chunks h36 (by omega) (by omega) hriff hfmt
    generalize insert_chunks F ext b chunks = G at gl g0 g8 g12 g4 g16 gfld gag gdrop ⊢
    generalize hC : (chunks.flatMap Chunk.bytes).length = C at gl g4 hriff
    have n1 : ¬ (field F 4 4 + (ext.length + C) = 0) := by omega
    have n4 : ¬ (field F 16 4 + ext.length < 16) := by omega
    rw [read_wav_long junk G (by omega)]
    simp only [g4, g0, g8, g12, g16, gfld 20 2 (by omega) (by omega),
      gfld 22 2 (by omega) (by omega), gfld 24 4 (by omega) (by omega),
      gfld 32 2 (by omega) (by omega), gfld 34 2 (by omega) (by omega),
      n1, c2, c3, n4, c5, if_false]
    have hstart : 36 + (field F 16 4 + ext.length - 16)
        = 36 + (field F 16 4 - 16) + ext.length := by omega
    have hsuf : F.drop b = G.drop (b + ext.length + C) := by
      rw [← List.drop_drop, gdrop, ← hC, List.drop_left]
    rw [hstart,
      scan_data_walk F G _ ext.length _ b hwalk (fun pos n hp hn => gag pos n (by omega) hn)
        (G.length + 1) (G.length + 1) (by omega) (by omega),
      scan_data_skip_chunks G _ chunks (b + ext.length) (F.drop b) gdrop hch (by omega)
        (G.length + 1) (F.length + 1) (by omega) (by omega),
      hC,
      scan_data_shift F G (8 + field F 4 4) _ (F.length + 1) b (b + ext.length + C) hsuf
        (by omega),
      hscan]
    simp only [Except.map]
    rw [← read_frames_shift F G s.pos _ d _ (by
      have := drop_shift F G b (b + ext.length + C) (s.pos - b) hsuf
      rw [show b + (s.pos - b) = s.pos by omega] at this
      rw [this]; congr 1; omega)]
    rw [← hs]; exact hacc

/-- Witness of C8: two extension bytes and a `LIST` chunk of odd length
inserted into the file `save_as_wav` writes for the frame `(1, 2)`. -/
theorem read_wav_insert_chunks_witness :
    wav_one_frame = save_as_wav [1] [2] 1
      ∧ (insert_chunks wav_one_frame [0, 0] 36 [list_chunk]).length = 52 + 2 + 12
      ∧ read_wav (fun _ => 0) (insert_chunks wav_one_frame [0, 0] 36 [list_chunk])
        = .ok ([1], [2]) :=
  ⟨by decide, by decide,
    read_wav_insert_chunks (fun _ => 0) wav_one_frame [0, 0] 36 [list_chunk] [1] [2]
      (by decide) (ChunkWalk.refl 36) (by decide) (by decide) (by decide)⟩

/-- C9. Encoder byte layout: for channels of `n` frames with
`44 + 8 * n < 2^31`, `save_as_wav` emits exactly `44 + 8 * n` bytes; the first
44 are `RIFF`, the little-endian u32 `36 + 8 * n`, `WAVE`, `fmt `, u32 16,
u16 3, u16 2, u32 44100, u32 352800, u16 8, u16 32, `data`, u32 `8 * n`; and
for every frame `i` the 8 bytes at offset `44 + 8 * i` are the 4 bytes of
`left_ch[i]` followed by the 4 bytes of `right_ch[i]`. -/
theorem save_as_wav_layout (left_ch right_ch : List Nat) (n : Nat)
    (hl : left_ch.length = n) (hsz : 44 + 8 * n < 2 ^ 31) :
    (save_as_wav left_ch right_ch n).length = 44 + 8 * n
    ∧ (save_as_wav left_ch right_ch n).take 44 =
        tag_riff ++ le_bytes 4 (36 + 8 * n) ++ tag_wave ++ tag_fmt ++ le_bytes 4 16
          ++ le_bytes 2 3 ++ le_bytes 2 2 ++ le_bytes 4 44100 ++ le_bytes 4 352800
          ++ le_bytes 2 8 ++ le_bytes 2 32 ++ tag_data ++ le_bytes 4 (8 * n)
    ∧ ∀ i x y, left_ch[i]? = some x → right_ch[i]? = some y →
        ((save_as_wav left_ch right_ch n).drop (44 + 8 * i)).take 8
          = le_bytes 4 x ++ le_bytes 4 y := by
  have hblock : ∀ j, j < n →
      (le_bytes 4 (left_ch.getD j 0) ++ le_bytes 4 (right_ch.getD j 0)).length = 8 := by
    intro j _; simp [le_bytes_length]
  have hfl := flatMap_range_length _ 8 n hblock
  have hH : ∀ a b : Nat, (wav_header_bytes a b).length = 44 := fun _ _ => rfl
  rw [save_as_wav_eq _ _ _ hsz, wav_header_eq]
  refine ⟨?_, ?_, ?_⟩
  · rw [List.length_append, hfl, hH]
  · rw [List.take_append_of_le_length (by rw [hH]), List.take_of_length_le (by rw [hH])]
  · intro i x y hx hy
    have hi : i < n := by
      rw [← hl]
      exact (List.getElem?_eq_some_iff.mp hx).1
    rw [List.drop_append_eq_append_drop, List.drop_of_length_le (by rw [hH]; omega), hH,
      List.nil_append, show 44 + 8 * i - 44 = 8 * i by omega,
      flatMap_range_block _ 8 n i hblock hi]
    simp [List.getD_eq_getElem?_getD, hx, hy]

/-- Witness of C9 on the two-frame channels `[1, 2]` and `[3, 4]`. -/
theorem save_as_wav_layout_witness :
    (save_as_wav [1, 2] [3, 4] 2).length = 44 + 8 * 2
    ∧ (save_as_wav [1, 2] [3, 4] 2).take 44 =
        tag_riff ++ le_bytes 4 (36 + 8 * 2) ++ tag_wave ++ tag_fmt ++ le_bytes 4 16
          ++ le_bytes 2 3 ++ le_bytes 2 2 ++ le_bytes 4 44100 ++ le_bytes 4 352800
          ++ le_bytes 2 8 ++ le_bytes 2 32 ++ tag_data ++ le_bytes 4 (8 * 2)
    ∧ ∀ i x y, [1, 2][i]? = some x → [3, 4][i]? = some y →
        ((save_as_wav [1, 2] [3, 4] 2).drop (44 + 8 * i)).take 8
          = le_bytes 4 x ++ le_bytes 4 y :=
  save_as_wav_layout [1, 2] [3, 4] 2 rfl (by decide)

/-- C10 as stated fails: `read_wav` accepts `wav_with_list` (64 bytes, with a
`LIST` chunk) and returns the frame `(1, 2)`, and `save_as_wav` on these
channels writes 52 bytes, not the file. -/
theorem save_as_wav_read_wav_with_list :
    read_wav (fun _ => 0) wav_with_list = .ok ([1], [2])
      ∧ save_as_wav [1] [2] 1 ≠ wav_with_list
      ∧ (save_as_wav [1] [2] 1).length = 52 ∧ wav_with_list.length = 64 :=
  ⟨by decide, by decide, by decide, by decide⟩

/-- C10, amended. Byte-identical re-encode: for every byte sequence `F` made of
the 44 header bytes `save_as_wav` writes for `n` frames (`44 + 8 * n < 2^31`)
followed by exactly `8 * n` payload bytes, `read_wav` accepts `F`, returns
channels of `n` frames, and `save_as_wav` on them writes `F` again. -/
theorem save_as_wav_read_wav (junk : Nat → Nat) (F : List Nat) (n : Nat) (hF : IsBytes F)
    (hsz : 44 + 8 * n < 2 ^ 31) (hlen : F.length = 44 + 8 * n)
    (hhdr : F.take 44 =
      tag_riff ++ le_bytes 4 (36 + 8 * n) ++ tag_wave ++ tag_fmt ++ le_bytes 4 16
        ++ le_bytes 2 3 ++ le_bytes 2 2 ++ le_bytes 4 44100 ++ le_bytes 4 352800
        ++ le_bytes 2 8 ++ le_bytes 2 32 ++ tag_data ++ le_bytes 4 (8 * n)) :
    ∃ left_ch right_ch, read_wav junk F = .ok (left_ch, right_ch)
      ∧ left_ch.length = n ∧ right_ch.length = n
      ∧ save_as_wav left_ch right_ch n = F := by
  have hP : (F.drop 44).length = 8 * n := by simp; omega
  have hsplit : F = F.take 44 ++ F.drop 44 := (List.take_append_drop 44 F).symm
  refine ⟨(List.range n).map (fun i => f32_at (F.drop 44) (2 * i)),
    (List.range n).map (fun i => f32_at (F.drop 44) (2 * i + 1)), ?_, by simp, by simp, ?_⟩
  · conv_lhs => rw [hsplit, hhdr]
    exact read_wav_canonical junk n (F.drop 44) hsz hP
  · rw [save_as_wav_eq _ _ _ hsz]
    conv_rhs => rw [hsplit, hhdr]
    congr 1
    have hblocks : (List.range n).flatMap (fun i =>
          le_bytes 4 (((List.range n).map (fun i => f32_at (F.drop 44) (2 * i))).getD i 0)
          ++ le_bytes 4 (((List.range n).map (fun i => f32_at (F.drop 44) (2 * i + 1))).getD i 0))
        = (List.range n).flatMap (fun i => ((F.drop 44).drop (8 * i)).take 8) := by
      apply List.flatMap_congr
      intro i hi
      have hi' : i < n := List.mem_range.mp hi
      simp only [List.getD_eq_getElem?_getD, List.getElem?_map, List.getElem?_range hi',
        Option.map_some', Option.getD_some]
      exact le_bytes_f32_at (F.drop 44) (isBytes_drop F hF 44) n i hP hi'
    rw [hblocks, flatMap_range_slices, ← hP, List.take_length]

/-- Witness of C10 amended on the file `save_as_wav` writes for the frames
`(1, 3)` and `(2, 4)`. -/
theorem save_as_wav_read_wav_witness :
    ∃ left_ch right_ch,
      read_wav (fun _ => 0) (save_as_wav [1, 2] [3, 4] 2) = .ok (left_ch, right_ch)
      ∧ left_ch.length = 2 ∧ right_ch.length = 2
      ∧ save_as_wav left_ch right_ch 2 = save_as_wav [1, 2] [3, 4] 2 :=
  save_as_wav_read_wav (fun _ => 0) (save_as_wav [1, 2] [3, 4] 2) 2 (by decide) (by decide)
    (by decide) (by decide)

/-- C11 as stated fails: for decoded channels of 3 frames and an encoder input
of 4 elements (2 frames per channel) the style-transfer path does not
truncate, it ends at the `AUDIOGEN_CHECK` on the channel length. -/
theorem encode_audio_input_too_long :
    encode_audio_input [1, 2, 3] [4, 5, 6] [0, 0, 0, 0] = .error .check := by
  decide

/-- C11, amended. Resize-for-model: for decoded channels of `m` frames and a
model frame count `T` (the element count of the encoder input divided by 2,
`T ≤ 2^30`): when `m > T` the style-transfer path ends at an `AUDIOGEN_CHECK`;
when `m ≤ T` it hands the encoder a tensor whose elements `0 .. T - 1` are the
left channel and `T .. 2 * T - 1` the right channel, each with its first `m`
samples equal to the input's and the remaining ones 0. -/
theorem encode_audio_input_pads (left_ch right_ch in_data : List Nat) (m T : Nat)
    (hl : left_ch.length = m) (hr : right_ch.length = m) (hT : in_data.length / 2 = T)
    (hT30 : T ≤ 2 ^ 30) :
    (T < m → encode_audio_input left_ch right_ch in_data = .error .check)
    ∧ (m ≤ T → ∃ packed, encode_audio_input left_ch right_ch in_data = .ok packed
        ∧ packed.length = in_data.length
        ∧ ∀ i, i < T →
            packed.getD i 0 = (if i < m then left_ch.getD i 0 else 0)
            ∧ packed.getD (T + i) 0 = (if i < m then right_ch.getD i 0 else 0)) := by
  constructor
  · intro h
    have : ¬ (left_ch.length ≤ in_data.length / 2) := by omega
    simp only [encode_audio_input, this, not_false_eq_true, if_true]
  · intro h
    have h1 : ¬ ¬ left_ch.length ≤ T := by omega
    have h2 : ¬ ¬ right_ch.length ≤ T := by omega
    have hnf : to_int32 T = (T : Int) := to_int32_small T (by omega)
    have hub : ¬ ((0 : Int) < (T : Int) ∧ ((resize left_ch T).length < T
        ∨ (resize right_ch T).length < T ∨ in_data.length < 2 * T ∨ 2 ^ 30 < T)) := by
      rw [resize_length, resize_length]; omega
    have heq : ¬ ((resize left_ch T).length ≠ (resize right_ch T).length) := by
      rw [resize_length, resize_length]; simp
    simp only [encode_audio_input, hT, h1, h2, if_false,
      prepare_encoder_input, hnf, Int.toNat_ofNat, hub, heq]
    refine ⟨_, rfl, ?_, ?_⟩
    · rw [foldl_length _ (fun a i => by simp)]
    · intro i hi
      have hp := foldl_pack (fun i => (resize left_ch T).getD i 0)
        (fun i => (resize right_ch T).getD i 0) T T in_data (Nat.le_refl _) (by omega)
      simp only [] at hp
      have e1 := hp i
      have e2 := hp (T + i)
      have c1 : ¬ (T + i < T) := by omega
      have c2 : T ≤ T + i ∧ T + i < T + T := by omega
      rw [if_pos hi, resize_getD, if_pos hi] at e1
      rw [if_neg c1, if_pos c2, Nat.add_sub_cancel_left, resize_getD, if_pos hi] at e2
      rw [e1, e2]
      constructor
      · by_cases hm : i < m
        · rw [if_pos hm]
        · rw [if_neg hm, List.getD_eq_getElem?_getD, List.getElem?_eq_none (by omega)]; rfl
      · by_cases hm : i < m
        · rw [if_pos hm]
        · rw [if_neg hm, List.getD_eq_getElem?_getD, List.getElem?_eq_none (by omega)]; rfl

/-- Witness of C11 amended: channels of 2 frames packed into an encoder input
of 7 elements (3 frames per channel). -/
theorem encode_audio_input_pads_witness :
    encode_audio_input [1, 2] [4, 5] [9, 9, 9, 9, 9, 9, 9] = .ok [1, 2, 0, 4, 5, 0, 9]
    ∧ (3 < 2 → encode_audio_input [1, 2] [4, 5] [9, 9, 9, 9, 9, 9, 9] = .error .check)
    ∧ (2 ≤ 3 → ∃ packed, encode_audio_input [1, 2] [4, 5] [9, 9, 9, 9, 9, 9, 9] = .ok packed
        ∧ packed.length = [9, 9, 9, 9, 9, 9, 9].length
        ∧ ∀ i, i < 3 →
            packed.getD i 0 = (if i < 2 then [1, 2].getD i 0 else 0)
            ∧ packed.getD (3 + i) 0 = (if i < 2 then [4, 5].getD i 0 else 0)) :=
  ⟨by decide,
    encode_audio_input_pads [1, 2] [4, 5] [9, 9, 9, 9, 9, 9, 9] 2 3 rfl rfl (by decide)
      (by decide)⟩

/-- C12. Filename derivation: `get_filename p s` is `p` with every blank
replaced by `_` and every ASCII uppercase letter by its lowercase form (all
other characters and the length unchanged), followed by `_`, the decimal
representation of `s`, and `.wav`; in particular the prompt `Warm Arpeggios`
with seed 7 gives `warm_arpeggios_7.wav`. -/
theorem get_filename_spec (prompt : List Nat) (seed : Nat) :
    get_filename prompt seed
        = prompt.map (fun c => if c = 32 then 95 else if 65 ≤ c ∧ c ≤ 90 then c + 32 else c)
          ++ ascii "_" ++ ascii (Nat.repr seed) ++ ascii ".wav"
    ∧ (prompt.map
        (fun c => if c = 32 then 95 else if 65 ≤ c ∧ c ≤ 90 then c + 32 else c)).length
        = prompt.length
    ∧ get_filename (ascii "Warm Arpeggios") 7 = ascii "warm_arpeggios_7.wav" := by
  refine ⟨?_, by simp, by decide⟩
  have hrepr : to_string seed = ascii (Nat.repr seed) := by
    simp only [to_string, ascii, Nat.repr]
    rfl
  have hmap : ∀ c : Nat, tolower (if c = 32 then 95 else c)
      = if c = 32 then 95 else if 65 ≤ c ∧ c ≤ 90 then c + 32 else c := by
    intro c
    by_cases h : c = 32
    · simp [h, tolower]
    · simp [h, tolower]
  simp only [get_filename, List.map_map, hrepr]
  have hfun : ((fun c => tolower c) ∘ fun c => if c = 32 then 95 else c)
      = fun c => if c = 32 then 95 else if 65 ≤ c ∧ c ≤ 90 then c + 32 else c := by
    funext c; exact hmap c
  rw [hfun]
  rfl

/-- C13 as stated fails: for `sigmaMax = 1/10` and 2 steps the derived start
log-SNR `log (9 + 1e-6)` lies above the end 2.0, the linspace runs downwards,
and the schedule rises from its first element `1/10` to its second. -/
theorem main_sigmas_not_monotone :
    ∃ out, main_sigmas Real.exp Real.log (1 / 10) 2 = some out
      ∧ out.getD 0 0 < out.getD 1 0 := by
  have hlt : ((1 : ℝ) / 10 < 1) := by norm_num
  obtain ⟨out, hout, -, hfirst, -, hmid⟩ := fill_sigmas_values Real.exp
    (List.replicate 3 (0 : ℝ)) (Real.log ((1 - 1 / 10) / (1 / 10) + 1 / 1000000)) 2 (1 / 10)
    (by simp) (by simp)
  refine ⟨out, ?_, ?_⟩
  · simp only [main_sigmas, hlt, if_true]
    exact hout
  · rw [hfirst, hmid 1 (by simp) (by simp)]
    have hq : (0 : ℝ) < (1 - 1 / 10) / (1 / 10) + 1 / 1000000 := by norm_num
    generalize hx : Real.log ((1 - 1 / 10) / (1 / 10) + 1 / 1000000)
      + ((1 : ℕ) : ℝ) * ((2 - Real.log ((1 - 1 / 10) / (1 / 10) + 1 / 1000000))
        / (((List.replicate 3 (0 : ℝ)).length : ℝ) - 1)) = x
    have hx2 : x + x = Real.log ((1 - 1 / 10) / (1 / 10) + 1 / 1000000) + 2 := by
      rw [← hx]
      simp only [List.length_replicate]
      push_cast
      ring
    have hsq : Real.exp x * Real.exp x
        = ((1 - 1 / 10) / (1 / 10) + 1 / 1000000) * (Real.exp 1 * Real.exp 1) := by
      rw [← Real.exp_add, hx2, Real.exp_add, Real.exp_log hq, ← Real.exp_add]
      norm_num
    have he := Real.exp_one_lt_d9
    have he0 := Real.exp_pos 1
    have hx0 := Real.exp_pos x
    have hx9 : Real.exp x < 9 := by
      by_contra hc
      have hc : 9 ≤ Real.exp x := not_lt.mp hc
      have h81 : (81 : ℝ) ≤ Real.exp x * Real.exp x := by nlinarith
      have hee : Real.exp 1 * Real.exp 1 < 8 := by nlinarith
      rw [hsq] at h81
      nlinarith
    rw [lt_div_iff₀ (by linarith)]
    linarith

/-- C13, amended. Schedule monotonicity: for every `sigmaMax` in (0, 1] whose
derived start log-SNR is at most the end 2.0 (that is `sigmaMax = 1`, or
`(1 - sigmaMax) / sigmaMax + 1e-6 ≤ e^2`) and every step count with
`1 ≤ numSteps` and `numSteps + 1 < 2^31`, the schedule the orchestrator builds
is non-increasing: `sigma[i + 1] ≤ sigma[i]` for every `i < numSteps` (over
the reals). -/
theorem main_sigmas_monotone (sigma_max : ℝ) (num_steps : Nat) (h0 : 0 < sigma_max)
    (h1 : sigma_max ≤ 1)
    (hstart : sigma_max < 1 → (1 - sigma_max) / sigma_max + 1 / 1000000 ≤ Real.exp 2)
    (hn : 1 ≤ num_steps) (hmax : num_steps + 1 < 2 ^ 31) :
    ∃ out, main_sigmas Real.exp Real.log sigma_max num_steps = some out
      ∧ out.length = num_steps + 1
      ∧ ∀ i, i < num_steps → out.getD (i + 1) 0 ≤ out.getD i 0 := by
  have hN : (num_steps + 1) % 2 ^ 64 = num_steps + 1 := Nat.mod_eq_of_lt (by omega)
  have hstart2 : (if sigma_max < 1
      then Real.log ((1 - sigma_max) / sigma_max + 1 / 1000000) else k_logsnr_max) ≤ 2 := by
    by_cases hlt : sigma_max < 1
    · rw [if_pos hlt]
      have hq : 0 < (1 - sigma_max) / sigma_max + 1 / 1000000 := by
        have : 0 ≤ (1 - sigma_max) / sigma_max := div_nonneg (by linarith) (le_of_lt h0)
        linarith
      exact (Real.log_le_iff_le_exp hq).mpr (hstart hlt)
    · rw [if_neg hlt]; simp only [k_logsnr_max]; norm_num
  have hbase : 1 / (1 + Real.exp (if sigma_max < 1
      then Real.log ((1 - sigma_max) / sigma_max + 1 / 1000000) else k_logsnr_max))
      ≤ sigma_max := by
    by_cases hlt : sigma_max < 1
    · rw [if_pos hlt]
      have hq : 0 < (1 - sigma_max) / sigma_max + 1 / 1000000 := by
        have : 0 ≤ (1 - sigma_max) / sigma_max := div_nonneg (by linarith) (le_of_lt h0)
        linarith
      rw [Real.exp_log hq, div_le_iff₀ (by linarith)]
      have h3 : sigma_max * ((1 - sigma_max) / sigma_max) = 1 - sigma_max := by
        field_simp
      nlinarith
    · rw [if_neg hlt]
      have hs1 : sigma_max = 1 := le_antisymm h1 (not_lt.mp hlt)
      rw [hs1, div_le_iff₀ (by have := Real.exp_pos (k_logsnr_max : ℝ); linarith)]
      have := Real.exp_pos (k_logsnr_max : ℝ)
      linarith
  obtain ⟨out, hout, hlen, hmono⟩ := fill_sigmas_antitone
    (List.replicate (num_steps + 1) (0 : ℝ)) _ 2 sigma_max (by simp; omega)
    (by simpa using hmax) hstart2 hbase
  refine ⟨out, ?_, by simpa using hlen, ?_⟩
  · simp only [main_sigmas, hN]; exact hout
  · intro i hi
    exact hmono i (by simpa using hi)

/-- Witness of C13 amended at `sigmaMax = 1/2` and the default of 8 steps. -/
theorem main_sigmas_monotone_witness :
    ∃ out, main_sigmas Real.exp Real.log (1 / 2) 8 = some out
      ∧ out.length = 8 + 1
      ∧ ∀ i, i < 8 → out.getD (i + 1) 0 ≤ out.getD i 0 :=
  main_sigmas_monotone (1 / 2) 8 (by norm_num) (by norm_num)
    (fun _ => by
      have := Real.add_one_le_exp 2
      norm_num at this ⊢
      linarith)
    (by decide) (by decide)

/-- C14. Style blend at full noise: with `sigmaMax = 1` the initial latent the
orchestrator builds is the seeded noise tensor, element for element, whether
or not a style-reference path was supplied (the style tensor having the
latent's length when one is; over the reals). -/
theorem main_initial_latent_full_noise (normal_draw : Nat → Nat → ℝ)
    (dit_x_in_data : List ℝ) (seed : Nat) (audio_input_path_empty : Bool)
    (encoded_audio : List ℝ)
    (hlen : audio_input_path_empty = false → encoded_audio.length = dit_x_in_data.length) :
    main_initial_latent normal_draw dit_x_in_data seed audio_input_path_empty encoded_audio 1
      = .ok (fill_random_norm_dist normal_draw dit_x_in_data dit_x_in_data.length seed) := by
  cases audio_input_path_empty with
  | true => simp [main_initial_latent]
  | false =>
    simp only [main_initial_latent, Bool.false_eq_true, if_false]
    exact blend_one_fold encoded_audio _ (min dit_x_in_data.length (2 ^ 31))
      (by rw [hlen rfl]; exact Nat.min_le_left _ _)

/-- Witness of C14 with a style tensor and a latent of two elements. -/
theorem main_initial_latent_full_noise_witness :
    main_initial_latent (fun s i => ((s + i : Nat) : ℝ)) [0, 0] 99 false [5, 7] 1
      = .ok (fill_random_norm_dist (fun s i => ((s + i : Nat) : ℝ)) [0, 0]
          ([0, 0] : List ℝ).length 99) :=
  main_initial_latent_full_noise (fun s i => ((s + i : Nat) : ℝ)) [0, 0] 99 false [5, 7]
    (fun _ => rfl)

/-- C15. Per-step seeding: for a request seed `s` and `numSteps < 2^32 - 4564`,
the generator seed of denoising step `i` is `s + i + 4564` modulo `2^32`; the
latent after step `i` is built from the draws of the generator with that seed;
the `step_idx` argument of `sampler_ping_pong` does not influence its result;
two different steps below `numSteps` have different generator seeds; and no
step has the generator seed of the initial latent noise, `s` modulo `2^32`. -/
theorem main_step_seed_fresh (seed num_steps : Nat) (h : num_steps < 2 ^ 32 - 4564) :
    (∀ i, main_step_seed seed i % 2 ^ 32 = (seed + i + 4564) % 2 ^ 32)
    ∧ (∀ (normal_draw : Nat → Nat → ℝ) (dit_invoke : List ℝ → ℝ → List ℝ)
        (t_buffer x : List ℝ) (i k : Nat),
        (dit_invoke x (t_buffer.getD i 0)).length = x.length → k < x.length →
        (main_denoise_step normal_draw dit_invoke t_buffer seed x i).getD k 0
          = (1 - t_buffer.getD (i + 1) 0)
              * (x.getD k 0 - t_buffer.getD i 0 * (dit_invoke x (t_buffer.getD i 0)).getD k 0)
            + t_buffer.getD (i + 1) 0 * normal_draw ((seed + i + 4564) % 2 ^ 32) k)
    ∧ (∀ (normal_draw : Nat → Nat → ℝ) (out x : List ℝ) (n : Nat) (c t : ℝ)
        (step_idx step_idx' seed' : Nat),
        sampler_ping_pong normal_draw out x n c t step_idx seed'
          = sampler_ping_pong normal_draw out x n c t step_idx' seed')
    ∧ (∀ i j, i < num_steps → j < num_steps → i ≠ j →
        main_step_seed seed i % 2 ^ 32 ≠ main_step_seed seed j % 2 ^ 32)
    ∧ (∀ i, i < num_steps → main_step_seed seed i % 2 ^ 32 ≠ seed % 2 ^ 32)
    ∧ (∀ (normal_draw : Nat → Nat → ℝ) (x : List ℝ) (k : Nat), k < x.length →
        (fill_random_norm_dist normal_draw x x.length seed).getD k 0
          = normal_draw (seed % 2 ^ 32) k) := by
  have hmod : ∀ i, main_step_seed seed i % 2 ^ 32 = (seed + i + 4564) % 2 ^ 32 := by
    intro i
    simp only [main_step_seed]
    exact Nat.mod_mod_of_dvd _ (by norm_num)
  refine ⟨hmod, ?_, ?_, ?_, ?_, ?_⟩
  · intro normal_draw dit_invoke t_buffer x i k hy hk
    simp only [main_denoise_step]
    rw [sampler_ping_pong_latent normal_draw x _ hy _ _ _ _ k hk, hmod]
  · intro normal_draw out x n c t step_idx step_idx' seed'
    rfl
  · intro i j hi hj hij
    rw [hmod, hmod]
    omega
  · intro i hi
    rw [hmod]
    omega
  · intro normal_draw x k hk
    exact fill_random_norm_dist_getD normal_draw x x.length seed k hk (Nat.le_refl _)

/-- Witness of C15 at the default seed 99 and the default of 8 steps. -/
theorem main_step_seed_fresh_witness :
    (∀ i j, i < 8 → j < 8 → i ≠ j →
        main_step_seed 99 i % 2 ^ 32 ≠ main_step_seed 99 j % 2 ^ 32)
    ∧ (∀ i, i < 8 → main_step_seed 99 i % 2 ^ 32 ≠ 99 % 2 ^ 32) :=
  ⟨(main_step_seed_fresh 99 8 (by decide)).2.2.2.1,
    (main_step_seed_fresh 99 8 (by decide)).2.2.2.2.1⟩

/-- C16 fails on the code: with a style tensor of 1 element and a latent of 2
elements the blend loop of `main` is not stopped by any shape check and reads
`encoded_audio[1]`, outside the tensor. -/
theorem main_initial_latent_reads_past_style :
    main_initial_latent (fun s i => ((s + i : Nat) : ℚ)) [0, 0] 99 false [5] (1 / 2)
      = .error .undefined := by
  decide

/-- C17. Decoder termination: on every byte sequence `read_wav` ends, with channels,
with an exit or in the undefined behaviour of the frame reader; the chunk scan
never exhausts a budget above the number of bytes left, because an iteration
at a position with fewer than 8 bytes left fails, and an iteration that reads
a chunk header whose id is not `data` continues at least 8 bytes further on
(exactly 8 when the declared length is 0 or `2^32 - 1`). -/
theorem read_wav_terminates (junk : Nat → Nat) (bytes : List Nat) :
    read_wav junk bytes ≠ .error .out_of_fuel
    ∧ (∀ riff_end pos fuel, bytes.length - pos < fuel →
        scan_data riff_end fuel ⟨bytes, pos, false⟩ ≠ .error .out_of_fuel)
    ∧ (∀ riff_end pos fuel, bytes.length < pos + 8 →
        scan_data riff_end (fuel + 1) ⟨bytes, pos, false⟩ = .error .check)
    ∧ (∀ riff_end pos fuel, pos + 8 ≤ bytes.length → (bytes.drop pos).take 4 ≠ tag_data →
        scan_data riff_end (fuel + 1) ⟨bytes, pos, false⟩
          = scan_data riff_end fuel
              ⟨bytes, pos + 8 + (field bytes (pos + 4) 4 + field bytes (pos + 4) 4 % 2) % 2 ^ 32,
                false⟩)
    ∧ (∀ riff_end pos fuel, pos + 8 ≤ bytes.length → (bytes.drop pos).take 4 ≠ tag_data →
        field bytes (pos + 4) 4 = 0 ∨ field bytes (pos + 4) 4 = 0xFFFFFFFF →
        scan_data riff_end (fuel + 1) ⟨bytes, pos, false⟩
          = scan_data riff_end fuel ⟨bytes, pos + 8, false⟩) := by
  refine ⟨?_, ?_, ?_, ?_, ?_⟩
  · by_cases hlen : 36 ≤ bytes.length
    · rw [read_wav_long junk bytes hlen]
      split_ifs
      · simp
      · simp
      · simp
      · simp
      · simp
      · cases hscan : scan_data (8 + field bytes 4 4) (bytes.length + 1)
            ⟨bytes, 36 + (field bytes 16 4 - 16), false⟩ with
        | error e =>
          intro hc
          simp only at hc
          have he : e = .out_of_fuel := by injection hc
          have hne := scan_data_terminates (8 + field bytes 4 4) bytes (bytes.length + 1)
            (36 + (field bytes 16 4 - 16)) (by omega)
          rw [hscan, he] at hne
          exact hne rfl
        | ok x => exact read_frames_ne_out_of_fuel _ _ _
    · intro hc
      have hr := read_wav_short junk bytes (by omega)
      rw [hc] at hr
      cases hr
  · intro riff_end pos fuel hf
    exact scan_data_terminates riff_end bytes fuel pos hf
  · intro riff_end pos fuel hlen
    rw [scan_data_succ, if_pos hlen]
  · intro riff_end pos fuel hlen hid
    rw [scan_data_succ, if_neg (by omega), if_neg hid]
  · intro riff_end pos fuel hlen hid hL
    rw [scan_data_succ, if_neg (by omega), if_neg hid]
    rcases hL with hL | hL <;> rw [hL] <;> rfl

end Audiogen
